import Mathlib

/-
Verification of the deduplication-and-assignment engine of the
embroidery sorter repository: a shallow embedding of
embroidery_sorter/workload_assignment.py, embroidery_sorter/file_operations.py
and embroidery_sorter/embroidery_core.py, together with proofs of the
specified properties (partitioning, greedy balance bound, atomic cluster
assignment, duplicate-cost adjustment, deterministic per-worker numbering,
canonical digest determinism and hashing fallback).

Modelling conventions: Python lists become Lean lists; Python dicts
(which preserve insertion order) become insertion-ordered association
lists; floats become rationals; in-range list indexing becomes getD;
fallible steps become Except values.
-/

set_option maxHeartbeats 1000000

/-- Metadata record for one scanned PES file, as built by
EmbroideryCore.scan_pes_files and enriched by the workflow: a content
digest string, an optional logical order-item id parsed from the file
name, the estimated production seconds, and the assigned worker index
(absent before assignment; Python code may also store arbitrary ints). -/
structure FileMeta where
  hash : String
  id_item : Option String
  seconds : ℚ
  person : Option Int
deriving DecidableEq

instance : Inhabited FileMeta := ⟨⟨"", none, 0, none⟩⟩

namespace Config

/-- Config.DEFAULT_HASH_LENGTH from embroidery_sorter/config.py. -/
def DEFAULT_HASH_LENGTH : Nat := 8

/-- Config.DUPLICATE_REDUCTION_SECONDS from embroidery_sorter/config.py. -/
def DUPLICATE_REDUCTION_SECONDS : ℚ := 300

/-- Config.DEFAULT_PEOPLE_COUNT from embroidery_sorter/config.py. -/
def DEFAULT_PEOPLE_COUNT : Nat := 4

/-- Config.DEFAULT_PERSON_LABELS from embroidery_sorter/config.py. -/
def DEFAULT_PERSON_LABELS : List String := ["A", "B", "C", "D"]

/-- Config.DEFAULT_PERSON_WEIGHTS from embroidery_sorter/config.py
(documented there as "last person gets less work"). -/
def DEFAULT_PERSON_WEIGHTS : List ℚ := [1, 1, 7/10, 1/5]

end Config

/- ------------------------------------------------------------------
Union-find of WorkloadAssignment.make_components.
------------------------------------------------------------------ -/

/-- One parent-pointer step: parent[x] (getD keeps it total; every use
keeps indices within range). -/
def pstep (parent : List Nat) (x : Nat) : Nat := parent.getD x x

/-- Iterated parent-pointer chasing (k steps). -/
def piter (parent : List Nat) : Nat → Nat → Nat
  | 0, x => x
  | k+1, x => piter parent k (pstep parent x)

/-- Fuel-bounded translation of the find loop of make_components, with
its path halving: while parent[x] != x: parent[x] = parent[parent[x]];
x = parent[x].  Each iteration rewrites parent[x] to its grandparent and
moves x there; the fuel only bounds the loop, and parent.length steps
always suffice on the reachable states. -/
def findAux : Nat → List Nat → Nat → Nat × List Nat
  | 0, parent, x => (x, parent)
  | fuel+1, parent, x =>
    if pstep parent x = x then (x, parent)
    else findAux fuel (parent.set x (pstep parent (pstep parent x)))
      (pstep parent (pstep parent x))

/-- The find function of make_components (returns the root found and the
compressed parent array). -/
def find (parent : List Nat) (x : Nat) : Nat × List Nat :=
  findAux parent.length parent x

/-- The union function of make_components: ra = find(a); rb = find(b);
if ra != rb: parent[rb] = ra.  Both finds thread the mutated parent. -/
def union (parent : List Nat) (a b : Nat) : List Nat :=
  let fa := find parent a
  let fb := find fa.2 b
  if fa.1 ≠ fb.1 then fb.2.set fb.1 fa.1 else fb.2

/-- Insertion-ordered grouping update, modelling
dict.setdefault(key, []).append(i) on a Python dict (which preserves the
order in which keys were first inserted). -/
def groupAdd {κ : Type} [DecidableEq κ] (gs : List (κ × List Nat)) (k : κ) (i : Nat) :
    List (κ × List Nat) :=
  match gs with
  | [] => [(k, [i])]
  | e :: rest => if e.1 = k then (e.1, e.2 ++ [i]) :: rest else e :: groupAdd rest k i

/-- The hash_map building loop of make_components:
for i, m in enumerate(file_meta): hash_map.setdefault(m["hash"], []).append(i). -/
def buildHashMapAux : List FileMeta → Nat → List (String × List Nat) → List (String × List Nat)
  | [], _, gs => gs
  | m :: rest, i, gs => buildHashMapAux rest (i+1) (groupAdd gs m.hash i)

/-- hash_map of make_components. -/
def buildHashMap (fm : List FileMeta) : List (String × List Nat) :=
  buildHashMapAux fm 0 []

/-- The id_map building loop of make_components; the guard
`if m.get("id_item"):` is Python truthiness, so both an absent id and an
empty-string id are excluded. -/
def buildIdMapAux : List FileMeta → Nat → List (String × List Nat) → List (String × List Nat)
  | [], _, gs => gs
  | m :: rest, i, gs =>
    buildIdMapAux rest (i+1)
      (match m.id_item with
       | some s => if s = "" then gs else groupAdd gs s i
       | none => gs)

/-- id_map of make_components. -/
def buildIdMap (fm : List FileMeta) : List (String × List Nat) :=
  buildIdMapAux fm 0 []

/-- The pairs actually passed to union by the two loops
`for lst in map.values(): for i in range(1, len(lst)): union(lst[0], lst[i])`. -/
def unionPairs {κ : Type} (groups : List (κ × List Nat)) : List (Nat × Nat) :=
  groups.flatMap (fun e => e.2.tail.map (fun j => (e.2.headD 0, j)))

/-- Folding the union calls over a pair list. -/
def runUnions (parent : List Nat) (pairs : List (Nat × Nat)) : List Nat :=
  pairs.foldl (fun p pr => union p pr.1 pr.2) parent

/-- One step of the final grouping loop of make_components:
r = find(i); comps.setdefault(r, []).append(i), threading the mutated
parent array. -/
def compsFold (st : List Nat × List (Nat × List Nat)) (i : Nat) :
    List Nat × List (Nat × List Nat) :=
  let fr := find st.1 i
  (fr.2, groupAdd st.2 fr.1 i)

/-- WorkloadAssignment.make_components: union-find over artifact indices
linking equal digests and equal (truthy) id_items, then the components
listed in first-seen root order (Python dict value order). -/
def make_components (fm : List FileMeta) : List (List Nat) :=
  let n := fm.length
  let p1 := runUnions (List.range n) (unionPairs (buildHashMap fm))
  let p2 := runUnions p1 (unionPairs (buildIdMap fm))
  (((List.range n).foldl compsFold (p2, [])).2).map Prod.snd

/- ------------------------------------------------------------------
WorkloadAssignment.assign_components_to_people.
------------------------------------------------------------------ -/

/-- Configuration slice actually read by WorkloadAssignment.__init__
(people_count, person_labels, duplicate_reduction; the person_weights
key of the configuration dict is not read there). -/
structure WorkloadAssignment where
  people_count : Nat
  person_labels : List String
  duplicate_reduction : ℚ

/-- One step of the per-component hash counting loop:
counts[h] = counts.get(h, 0) + 1 on an insertion-ordered dict. -/
def bump : List (String × Nat) → String → List (String × Nat)
  | [], h => [(h, 1)]
  | e :: rest, h => if e.1 = h then (e.1, e.2 + 1) :: rest else e :: bump rest h

/-- The counts dict built inside assign_components_to_people for one
component's hashes. -/
def countsMap (hs : List String) : List (String × Nat) := hs.foldl bump []

/-- reduction = sum((cnt - 1) * duplicate_reduction for cnt in
counts.values() if cnt > 1). -/
def dupReduction (dup : ℚ) (hs : List String) : ℚ :=
  ((countsMap hs).map (fun e => if 1 < e.2 then ((e.2 : ℚ) - 1) * dup else 0)).sum

/-- adjusted = max(0.0, s - reduction) for one component. -/
def compAdjusted (wa : WorkloadAssignment) (fm : List FileMeta) (comp : List Nat) : ℚ :=
  max 0 ((comp.map (fun i => (fm.getD i default).seconds)).sum
    - dupReduction wa.duplicate_reduction (comp.map (fun i => (fm.getD i default).hash)))

/-- comp_times list of (component, adjusted time) pairs. -/
def compTimes (wa : WorkloadAssignment) (fm : List FileMeta) (comps : List (List Nat)) :
    List (List Nat × ℚ) :=
  comps.map (fun c => (c, compAdjusted wa fm c))

/-- Stable descending insertion by adjusted time (ties keep earlier
elements first). -/
def insertDesc (x : List Nat × ℚ) : List (List Nat × ℚ) → List (List Nat × ℚ)
  | [] => [x]
  | y :: ys => if y.2 ≤ x.2 then x :: y :: ys else y :: insertDesc x ys

/-- comp_times.sort(key=lambda x: x[1], reverse=True): CPython list.sort
is a stable sort, and the stable descending reordering of a list is
unique, so the stable insertion sort below produces exactly the same
list. -/
def sortByAdjustedDesc (l : List (List Nat × ℚ)) : List (List Nat × ℚ) :=
  l.foldr insertDesc []

/-- person = min(range(people_count), key=lambda p: buckets[p]): Python
min keeps the first index attaining the minimum (strict-less updates). -/
def minIndex (buckets : List ℚ) (pc : Nat) : Nat :=
  (List.range pc).foldl
    (fun best p => if buckets.getD p 0 < buckets.getD best 0 then p else best) 0

/-- One iteration of the assignment loop: pick the least-loaded person,
add the component's adjusted time to that bucket, and record the person
for every index of the component. -/
def assignStep (pc : Nat) (st : List ℚ × List Nat) (c : List Nat × ℚ) :
    List ℚ × List Nat :=
  let person := minIndex st.1 pc
  (st.1.set person (st.1.getD person 0 + c.2),
   c.1.foldl (fun a idx => a.set idx person) st.2)

/-- WorkloadAssignment.assign_components_to_people: adjusted component
times, stable descending sort, then greedy least-loaded-first atomic
assignment; returns (assignment, buckets). -/
def assign_components_to_people (wa : WorkloadAssignment) (fm : List FileMeta)
    (comps : List (List Nat)) : List Nat × List ℚ :=
  let sorted := sortByAdjustedDesc (compTimes wa fm comps)
  let res := sorted.foldl (assignStep wa.people_count)
    (List.replicate wa.people_count 0, List.replicate fm.length 0)
  (res.2, res.1)

/- ------------------------------------------------------------------
FileOperations.group_into_person_folders, first (numbering) pass.
------------------------------------------------------------------ -/

/-- Normalisation of file_meta["person"] in group_into_person_folders:
if person_idx is None or not (0 <= person_idx < len(person_labels)),
default to 0. -/
def normPerson (labels : List String) (p : Option Int) : Nat :=
  match p with
  | none => 0
  | some v => if 0 ≤ v ∧ v < (labels.length : Int) then v.toNat else 0

/-- Membership test of a hash key in one person's order dict. -/
def hasKey (po : List (String × Nat)) (h : String) : Bool :=
  po.any (fun e => decide (e.1 = h))

/-- One step of the first pass of group_into_person_folders: if the hash
was not seen yet for that person, record the person's next order number
for it and advance that person's counter. -/
def fpStep (labels : List String) (st : List (List (String × Nat)) × List Nat)
    (m : FileMeta) : List (List (String × Nat)) × List Nat :=
  let p := normPerson labels m.person
  let po := st.1.getD p []
  if hasKey po m.hash then st
  else (st.1.set p (po ++ [(m.hash, st.2.getD p 1)]), st.2.set p (st.2.getD p 1 + 1))

/-- The first pass of FileOperations.group_into_person_folders: the
person_orders dicts (hash -> order number per person), built by
iterating file_meta in scan order with per-person counters starting
at 1.  The second pass only reads these numbers back to build folder
names and perform the moves. -/
def group_into_person_folders_orders (labels : List String) (fm : List FileMeta) :
    List (List (String × Nat)) :=
  (fm.foldl (fpStep labels) (List.replicate labels.length [], List.replicate labels.length 1)).1

/- ------------------------------------------------------------------
EmbroideryCore: canonical bytes and hashing.
------------------------------------------------------------------ -/

/-- Thread metadata consumed by canonical_bytes_from_pattern: color
(already coerced by int(...)), catalog number and description (the
Python `or ""` replaces a missing value by the empty string). -/
structure EmbThread where
  color : Int
  catalog_number : String
  description : String
deriving DecidableEq

/-- Structured pattern slice consumed by canonical_bytes_from_pattern:
stitches as (x, y, command) with float coordinates modelled as
rationals and the integer command code, the thread list, and the extras
mapping as a key-value list. -/
structure EmbPattern where
  stitches : List (ℚ × ℚ × Int)
  threadlist : List EmbThread
  extras : List (String × String)
deriving DecidableEq

/-- Python round() on a float: round half to even. -/
def pyRound (q : ℚ) : Int :=
  if q - ⌊q⌋ < 1/2 then ⌊q⌋
  else if 1/2 < q - ⌊q⌋ then ⌊q⌋ + 1
  else if ⌊q⌋ % 2 = 0 then ⌊q⌋ else ⌊q⌋ + 1

/-- Serialised stitch entry "S:{x},{y},{cmd}" with integer-rounded
coordinates and the command code verbatim. -/
def stitchPart (s : ℚ × ℚ × Int) : String :=
  "S:" ++ toString (pyRound s.1) ++ "," ++ toString (pyRound s.2.1) ++ "," ++ toString s.2.2

/-- Serialised thread entry "T:{int(color)}|{catalog}|{desc}". -/
def threadPart (t : EmbThread) : String :=
  "T:" ++ toString t.color ++ "|" ++ t.catalog_number ++ "|" ++ t.description

/-- Serialised extras entry "E:{k}={v}". -/
def extraPart (e : String × String) : String :=
  "E:" ++ e.1 ++ "=" ++ e.2

/-- Extras iterated in sorted key order (sorted(extras.keys())). -/
def sortedExtras (ex : List (String × String)) : List (String × String) :=
  ex.mergeSort (fun a b => decide (a.1 ≤ b.1))

/-- EmbroideryCore.canonical_bytes_from_pattern: stitch parts, then
thread parts in original order, then extras in sorted key order, joined
with ";" (the UTF-8 encoding of the returned string; the `if extras:`
guard in the source is a no-op because iterating an empty dict adds
nothing). -/
def canonical_bytes_from_pattern (pat : EmbPattern) : String :=
  String.intercalate ";"
    (pat.stitches.map stitchPart ++ pat.threadlist.map threadPart
      ++ (sortedExtras pat.extras).map extraPart)

/-- EmbroideryCore.hash_file_by_pattern.  The external pieces are inputs
of the model: sha is the hex digest function of hashlib.sha256 over a
byte string, parseResult is the outcome of loading the file with
pyembroidery (error covers both an unavailable library and an exception
raised by parsing, which the source catches), and rawData is the file's
raw bytes.  Both branches truncate the hex digest to
Config.DEFAULT_HASH_LENGTH characters; no branch propagates a failure. -/
def hash_file_by_pattern (sha : List UInt8 → String) (parseResult : Except Unit EmbPattern)
    (rawData : List UInt8) : Except Unit String :=
  match parseResult with
  | Except.ok pat =>
    Except.ok ((sha (canonical_bytes_from_pattern pat).toUTF8.toList).take
      Config.DEFAULT_HASH_LENGTH)
  | Except.error _ =>
    Except.ok ((sha rawData).take Config.DEFAULT_HASH_LENGTH)

/- ------------------------------------------------------------------
Specification-side notions used to state the claims.
------------------------------------------------------------------ -/

/-- Two artifact indices share their content digest. -/
def shareDigest (fm : List FileMeta) (a b : Nat) : Prop :=
  (fm.getD a default).hash = (fm.getD b default).hash

/-- Truthy logical item id (absent and empty string both excluded). -/
def idKey : Option String → Option String
  | none => none
  | some s => if s = "" then none else some s

/-- Two artifact indices share a (truthy) logical item id. -/
def shareItem (fm : List FileMeta) (a b : Nat) : Prop :=
  ∃ s, idKey (fm.getD a default).id_item = some s ∧
    idKey (fm.getD b default).id_item = some s

/-- One linkage edge between two artifact indices: both in range and
sharing a digest or a logical item id. -/
def edge (fm : List FileMeta) (a b : Nat) : Prop :=
  a < fm.length ∧ b < fm.length ∧ (shareDigest fm a b ∨ shareItem fm a b)

/-- Connectivity by a chain of shared-digest / shared-item edges. -/
def connected (fm : List FileMeta) : Nat → Nat → Prop :=
  Relation.EqvGen (edge fm)

/-- First-seen deduplication of a list (keeps the first occurrence of
each value, in order of first appearance). -/
def distinctKeep : List String → List String
  | [] => []
  | h :: t => h :: (distinctKeep t).filter (fun x => x ≠ h)

/-- The duplicate reduction as the specification words it: for every
digest occurring k > 1 times within the cluster, (k - 1) times the
duplicate reduction constant. -/
def specReduction (dup : ℚ) (hs : List String) : ℚ :=
  ((distinctKeep hs).map
    (fun h => if 1 < hs.count h then ((hs.count h : ℚ) - 1) * dup else 0)).sum

/-- Numbering of a list from a given start: [(l 0, s), (l 1, s+1), ...]. -/
def enum1 (s : Nat) : List String → List (String × Nat)
  | [] => []
  | h :: t => (h, s) :: enum1 (s+1) t

/-- The file list with empty-string logical item ids replaced by absent
ones. -/
def normalizeEmptyIds (fm : List FileMeta) : List FileMeta :=
  fm.map (fun m => if m.id_item = some "" then
    { hash := m.hash, id_item := none, seconds := m.seconds, person := m.person } else m)

/-- Least-loaded choice following the specification's words on
person_weights: compare bucket_total / weight instead of raw
bucket_total. -/
def minIndexWeighted (buckets weights : List ℚ) (pc : Nat) : Nat :=
  (List.range pc).foldl
    (fun best p => if buckets.getD p 0 / weights.getD p 1
      < buckets.getD best 0 / weights.getD best 1 then p else best) 0

/-- Assignment step with the weighted least-loaded comparison. -/
def assignStepWeighted (pc : Nat) (weights : List ℚ) (st : List ℚ × List Nat)
    (c : List Nat × ℚ) : List ℚ × List Nat :=
  let person := minIndexWeighted st.1 weights pc
  (st.1.set person (st.1.getD person 0 + c.2),
   c.1.foldl (fun a idx => a.set idx person) st.2)

/-- The balancer as the specification describes it when person_weights
are configured: identical to assign_components_to_people except that the
least-loaded worker is chosen by bucket_total / weight. -/
def assign_components_weighted (wa : WorkloadAssignment) (weights : List ℚ)
    (fm : List FileMeta) (comps : List (List Nat)) : List Nat × List ℚ :=
  let sorted := sortByAdjustedDesc (compTimes wa fm comps)
  let res := sorted.foldl (assignStepWeighted wa.people_count weights)
    (List.replicate wa.people_count 0, List.replicate fm.length 0)
  (res.2, res.1)

/- ------------------------------------------------------------------
General list helpers.
------------------------------------------------------------------ -/

theorem getD_set_self {α : Type} {l : List α} {i : Nat} {a d : α} (h : i < l.length) :
    (l.set i a).getD i d = a := by
  simp [List.getD_eq_getElem?_getD, List.getElem?_set_self h]

theorem getD_set_ne {α : Type} {l : List α} {i j : Nat} {a d : α} (h : i ≠ j) :
    (l.set i a).getD j d = l.getD j d := by
  simp [List.getD_eq_getElem?_getD, List.getElem?_set_ne h]

theorem getD_replicate' {α : Type} {n p : Nat} {a d : α} (h : p < n) :
    (List.replicate n a).getD p d = a := by
  simp [List.getD_eq_getElem?_getD, List.getElem?_replicate, h]

/- ------------------------------------------------------------------
First-seen deduplication and the counts dict (claim C6 groundwork).
------------------------------------------------------------------ -/

theorem mem_distinctKeep {a : String} : ∀ {l : List String}, a ∈ distinctKeep l ↔ a ∈ l := by
  intro l
  induction l with
  | nil => simp [distinctKeep]
  | cons h t ih =>
    simp only [distinctKeep, List.mem_cons, List.mem_filter, ih]
    by_cases hah : a = h
    · simp [hah]
    · simp [hah]

theorem nodup_distinctKeep : ∀ (l : List String), (distinctKeep l).Nodup := by
  intro l
  induction l with
  | nil => simp [distinctKeep]
  | cons h t ih =>
    refine List.Nodup.cons ?_ (List.Nodup.filter _ ih)
    intro hmem
    rcases List.mem_filter.mp hmem with ⟨-, hne⟩
    simp at hne

theorem distinctKeep_snoc (l : List String) (a : String) :
    distinctKeep (l ++ [a]) = if a ∈ l then distinctKeep l else distinctKeep l ++ [a] := by
  induction l with
  | nil => simp [distinctKeep]
  | cons h t ih =>
    rw [List.cons_append, distinctKeep, ih, distinctKeep]
    by_cases hat : a ∈ t
    · rw [if_pos hat, if_pos (by simp [hat])]
    · rw [if_neg hat]
      by_cases hah : a = h
      · rw [if_pos (by simp [hah]), List.filter_append]
        simp [hah]
      · rw [if_neg (by simp [hah, hat] : ¬a ∈ h :: t), List.filter_append]
        simp [hah]

theorem bump_of_not_mem : ∀ {gs : List (String × Nat)} {h : String},
    h ∉ gs.map Prod.fst → bump gs h = gs ++ [(h, 1)] := by
  intro gs
  induction gs with
  | nil => intro h _; rfl
  | cons e rest ih =>
    intro h hmem
    simp only [List.map_cons, List.mem_cons] at hmem
    push_neg at hmem
    rw [bump, if_neg (Ne.symm hmem.1 : ¬e.1 = h), ih hmem.2, List.cons_append]

theorem bump_map_of_mem (h : String) : ∀ (ks : List String) (f g : String → Nat),
    ks.Nodup → h ∈ ks → (∀ k ∈ ks, k ≠ h → f k = g k) → g h = f h + 1 →
    bump (ks.map (fun k => (k, f k))) h = ks.map (fun k => (k, g k)) := by
  intro ks
  induction ks with
  | nil => intro f g _ hmem; exact absurd hmem (by simp)
  | cons k₀ rest ih =>
    intro f g hnd hmem hfg hgh
    rcases List.nodup_cons.mp hnd with ⟨hk₀, hndr⟩
    by_cases hk : k₀ = h
    · subst hk
      rw [List.map_cons, bump, if_pos rfl]
      rw [List.map_cons]
      refine congrArg₂ List.cons ?_ ?_
      · show (k₀, f k₀ + 1) = (k₀, g k₀)
        rw [hgh]
      · refine List.map_congr_left ?_
        intro k hkr
        have hne : k ≠ k₀ := fun hhh => hk₀ (hhh ▸ hkr)
        rw [hfg k (List.mem_cons_of_mem _ hkr) hne]
    · have hmem' : h ∈ rest := by
        rcases List.mem_cons.mp hmem with h1 | h1
        · exact absurd h1.symm hk
        · exact h1
      rw [List.map_cons, bump, if_neg hk, List.map_cons,
        hfg k₀ (List.mem_cons_self _ _) hk,
        ih f g hndr hmem' (fun k hk2 => hfg k (List.mem_cons_of_mem _ hk2)) hgh]

theorem countsMap_snoc (l : List String) (h : String) :
    countsMap (l ++ [h]) = bump (countsMap l) h := by
  simp [countsMap, List.foldl_append]

theorem countsMap_eq : ∀ (l : List String),
    countsMap l = (distinctKeep l).map (fun k => (k, l.count k)) := by
  intro l
  induction l using List.reverseRecOn with
  | nil => rfl
  | append_singleton l h ih =>
    rw [countsMap_snoc, ih, distinctKeep_snoc]
    by_cases hmem : h ∈ l
    · rw [if_pos hmem]
      refine bump_map_of_mem h (distinctKeep l) _ _ (nodup_distinctKeep l)
        (mem_distinctKeep.mpr hmem) ?_ ?_
      · intro k _ hkh
        have hhk : ¬(h == k) = true := by simp; exact fun hx => hkh hx.symm
        rw [List.count_append, List.count_singleton, if_neg hhk, Nat.add_zero]
      · rw [List.count_append, List.count_singleton]
        simp
    · rw [if_neg hmem, List.map_append]
      have hb : h ∉ ((distinctKeep l).map (fun k => (k, l.count k))).map Prod.fst := by
        simp only [List.map_map]
        simpa [Function.comp, mem_distinctKeep] using hmem
      rw [bump_of_not_mem hb]
      refine congrArg₂ (· ++ ·) ?_ ?_
      · refine List.map_congr_left ?_
        intro k hk
        have hkh : ¬(h == k) = true := by
          simp
          rintro rfl
          exact hmem (mem_distinctKeep.mp hk)
        rw [List.count_append, List.count_singleton, if_neg hkh, Nat.add_zero]
      · have h0 : l.count h = 0 := List.count_eq_zero.mpr hmem
        simp [List.count_append, List.count_singleton, h0]

theorem dupReduction_eq_specReduction (dup : ℚ) (hs : List String) :
    dupReduction dup hs = specReduction dup hs := by
  rw [dupReduction, countsMap_eq, specReduction, List.map_map]
  rfl

/-- Claim C6: for every cluster, the adjusted cost computed by
assign_components_to_people equals max(0, S - R) where S is the sum of
the cluster's estimated seconds and R is the sum, over every digest
occurring k > 1 times within the cluster, of (k - 1) times the duplicate
reduction constant; in particular the adjusted cost is never negative. -/
theorem claim_C6 (wa : WorkloadAssignment) (fm : List FileMeta) (comp : List Nat) :
    compAdjusted wa fm comp =
      max 0 ((comp.map (fun i => (fm.getD i default).seconds)).sum
        - specReduction wa.duplicate_reduction (comp.map (fun i => (fm.getD i default).hash)))
    ∧ 0 ≤ compAdjusted wa fm comp := by
  constructor
  · rw [compAdjusted, dupReduction_eq_specReduction]
  · exact le_max_left 0 _

/- ------------------------------------------------------------------
Claim C2: the five-artifact scenario.
------------------------------------------------------------------ -/

/-- Artifact list of the worked scenario: digests [h1,h1,h2,h3,h3],
logical ids [i1,null,i1,i2,i2], costs [10,20,5,7,7]. -/
def c2File : List FileMeta :=
  [⟨"h1", some "i1", 10, none⟩, ⟨"h1", none, 20, none⟩, ⟨"h2", some "i1", 5, none⟩,
   ⟨"h3", some "i2", 7, none⟩, ⟨"h3", some "i2", 7, none⟩]

/-- Two workers A/B with duplicate_reduction = 3. -/
def c2Wa : WorkloadAssignment := ⟨2, ["A", "B"], 3⟩

/-- Claim C2: on the worked scenario the clusters are {0,1,2} and {3,4},
their adjusted costs are 32 and 11, worker 0 (A) ends with bucket 32 and
worker 1 (B) with 11, artifacts 0,1,2 go to worker 0 and artifacts 3,4
to worker 1. -/
theorem claim_C2 :
    make_components c2File = [[0, 1, 2], [3, 4]] ∧
    compTimes c2Wa c2File (make_components c2File) = [([0, 1, 2], 32), ([3, 4], 11)] ∧
    assign_components_to_people c2Wa c2File (make_components c2File) =
      ([0, 0, 0, 1, 1], [32, 11]) := by
  have hmc : make_components c2File = [[0, 1, 2], [3, 4]] := by decide
  refine ⟨hmc, ?_, ?_⟩
  · rw [hmc]
    norm_num +decide [compTimes, compAdjusted, dupReduction, countsMap, bump, c2File, c2Wa]
  · rw [hmc]
    norm_num +decide [assign_components_to_people, sortByAdjustedDesc, insertDesc, compTimes,
      compAdjusted, dupReduction, countsMap, bump, assignStep, minIndex, List.range_succ,
      c2File, c2Wa]

/- ------------------------------------------------------------------
Claim C5: the person_weights configuration is not consumed.
------------------------------------------------------------------ -/

/-- Three artifacts with distinct digests and costs 2, 1, 1. -/
def c5File : List FileMeta :=
  [⟨"a", none, 2, none⟩, ⟨"b", none, 1, none⟩, ⟨"c", none, 1, none⟩]

/-- Two workers, no duplicate reduction. -/
def c5Wa : WorkloadAssignment := ⟨2, ["A", "B"], 0⟩

/-- Weights as the configuration documents them: the second worker has a
reduced capacity. -/
def c5Weights : List ℚ := [1, 1/5]

/-- Claim C5 fails on the code: with weights [1, 1/5] configured, the
implemented balancer assigns the third singleton cluster to worker 1
(it compares raw bucket totals 2 and 1), while the weighted comparison
the specification describes (2/1 = 2 against 1/(1/5) = 5) assigns it to
worker 0.  The person_weights configuration value is never read by
WorkloadAssignment. -/
theorem claim_C5_weights_ignored :
    make_components c5File = [[0], [1], [2]] ∧
    (assign_components_to_people c5Wa c5File [[0], [1], [2]]).1 = [0, 1, 1] ∧
    (assign_components_weighted c5Wa c5Weights c5File [[0], [1], [2]]).1 = [0, 1, 0] ∧
    (assign_components_to_people c5Wa c5File [[0], [1], [2]]).1 ≠
      (assign_components_weighted c5Wa c5Weights c5File [[0], [1], [2]]).1 := by
  refine ⟨by decide, ?_, ?_, ?_⟩
  · norm_num +decide [assign_components_to_people, sortByAdjustedDesc, insertDesc, compTimes,
      compAdjusted, dupReduction, countsMap, bump, assignStep, minIndex, List.range_succ,
      c5File, c5Wa]
  · norm_num +decide [assign_components_weighted, sortByAdjustedDesc, insertDesc, compTimes,
      compAdjusted, dupReduction, countsMap, bump, assignStepWeighted, minIndexWeighted,
      List.range_succ, c5File, c5Wa, c5Weights]
  · norm_num +decide [assign_components_to_people, assign_components_weighted, sortByAdjustedDesc,
      insertDesc, compTimes, compAdjusted, dupReduction, countsMap, bump, assignStep, minIndex,
      assignStepWeighted, minIndexWeighted, List.range_succ, c5File, c5Wa, c5Weights]

/- ------------------------------------------------------------------
Claims C8 and C9: canonical digest determinism and hashing fallback.
------------------------------------------------------------------ -/

theorem map_stitchPart_congr : ∀ (l1 l2 : List (ℚ × ℚ × Int)),
    List.Forall₂ (fun s t => pyRound s.1 = pyRound t.1 ∧ pyRound s.2.1 = pyRound t.2.1
      ∧ s.2.2 = t.2.2) l1 l2 → l1.map stitchPart = l2.map stitchPart := by
  intro l1 l2 hs
  induction hs with
  | nil => rfl
  | cons hab _ ih =>
    rw [List.map_cons, List.map_cons, ih]
    rcases hab with ⟨h1, h2, h3⟩
    rw [stitchPart, stitchPart, h1, h2, h3]

/-- Claim C8: canonical_bytes_from_pattern followed by the (truncated)
digest is deterministic: hashing the same pattern twice yields the same
digest, and two patterns with equal thread lists, equal extras, equal
stitch command codes, and stitch coordinates that round to the same
nearest integers yield the identical digest, for every digest
function. -/
theorem claim_C8 (sha : List UInt8 → String) (raw : List UInt8) (p1 p2 : EmbPattern)
    (ht : p1.threadlist = p2.threadlist) (hex : p1.extras = p2.extras)
    (hs : List.Forall₂ (fun s t => pyRound s.1 = pyRound t.1 ∧ pyRound s.2.1 = pyRound t.2.1
      ∧ s.2.2 = t.2.2) p1.stitches p2.stitches) :
    hash_file_by_pattern sha (Except.ok p1) raw = hash_file_by_pattern sha (Except.ok p1) raw ∧
    hash_file_by_pattern sha (Except.ok p1) raw = hash_file_by_pattern sha (Except.ok p2) raw := by
  have hcb : canonical_bytes_from_pattern p1 = canonical_bytes_from_pattern p2 := by
    rw [canonical_bytes_from_pattern, canonical_bytes_from_pattern, ht, hex,
      map_stitchPart_congr p1.stitches p2.stitches hs]
  exact ⟨rfl, by rw [hash_file_by_pattern, hash_file_by_pattern, hcb]⟩

/-- Stand-in digest primitive for the witness. -/
def c8Sha (bs : List UInt8) : String := toString bs.length

/-- Pattern with float-noise coordinates (0.1, 2.2). -/
def c8Pat1 : EmbPattern := ⟨[(1/10, 22/10, 3)], [⟨5, "c", "d"⟩], [("k", "v")]⟩

/-- The same design with coordinates (-0.1, 2); both round to (0, 2). -/
def c8Pat2 : EmbPattern := ⟨[(-1/10, 2, 3)], [⟨5, "c", "d"⟩], [("k", "v")]⟩

theorem claim_C8_witness :
    c8Pat1.threadlist = c8Pat2.threadlist ∧ c8Pat1 ≠ c8Pat2 ∧
    hash_file_by_pattern c8Sha (Except.ok c8Pat1) []
      = hash_file_by_pattern c8Sha (Except.ok c8Pat2) [] := by
  refine ⟨rfl, by norm_num [c8Pat1, c8Pat2], (claim_C8 c8Sha [] c8Pat1 c8Pat2 rfl rfl ?_).2⟩
  refine List.Forall₂.cons ⟨?_, ?_, rfl⟩ List.Forall₂.nil
  · show pyRound (1/10) = pyRound (-1/10)
    rw [pyRound, pyRound]
    norm_num
  · show pyRound (22/10) = pyRound 2
    rw [pyRound, pyRound]
    norm_num

/-- Claim C9: hash_file_by_pattern always returns a digest (both
branches produce a value, never a propagated failure), and whenever
structured parsing is unavailable or fails it returns the raw-byte
digest truncated to the configured hash length. -/
theorem claim_C9 (sha : List UInt8 → String) (parseResult : Except Unit EmbPattern)
    (raw : List UInt8) :
    (∃ s, hash_file_by_pattern sha parseResult raw = Except.ok s) ∧
    (∀ e, parseResult = Except.error e →
      hash_file_by_pattern sha parseResult raw =
        Except.ok ((sha raw).take Config.DEFAULT_HASH_LENGTH)) := by
  cases parseResult with
  | ok pat => exact ⟨⟨_, rfl⟩, fun e h => by cases h⟩
  | error e => exact ⟨⟨_, rfl⟩, fun e h => rfl⟩

/-- Stand-in digest primitive for the witness. -/
def c9Sha (_bs : List UInt8) : String := "0123456789abcdef"

theorem claim_C9_witness :
    hash_file_by_pattern c9Sha (Except.error ()) [7, 7]
      = Except.ok ((c9Sha [7, 7]).take Config.DEFAULT_HASH_LENGTH) :=
  (claim_C9 c9Sha (Except.error ()) [7, 7]).2 () rfl

/- ------------------------------------------------------------------
Claim C7: deterministic per-worker folder numbering.
------------------------------------------------------------------ -/

/-- Digests of the files normalised to worker p, in original scan
order. -/
def personHashes (labels : List String) (fm : List FileMeta) (p : Nat) : List String :=
  (fm.filter (fun m => decide (normPerson labels m.person = p))).map FileMeta.hash

theorem enum1_snoc : ∀ (l : List String) (s : Nat) (a : String),
    enum1 s (l ++ [a]) = enum1 s l ++ [(a, s + l.length)] := by
  intro l
  induction l with
  | nil => intro s a; simp [enum1]
  | cons h t ih =>
    intro s a
    rw [List.cons_append, enum1, enum1, ih]
    have : s + 1 + t.length = s + (t.length + 1) := by omega
    rw [this, List.length_cons, List.cons_append]

theorem enum1_map_fst (s : Nat) (l : List String) : (enum1 s l).map Prod.fst = l := by
  induction l generalizing s with
  | nil => rfl
  | cons h t ih => rw [enum1, List.map_cons, ih]

theorem enum1_map_snd (s : Nat) (l : List String) :
    (enum1 s l).map Prod.snd = List.range' s l.length := by
  induction l generalizing s with
  | nil => rfl
  | cons h t ih => rw [enum1, List.map_cons, ih, List.length_cons, List.range'_succ]

theorem hasKey_iff (po : List (String × Nat)) (h : String) :
    hasKey po h = true ↔ h ∈ po.map Prod.fst := by
  simp [hasKey, List.any_eq_true]

theorem personHashes_snoc (labels : List String) (fm : List FileMeta) (m : FileMeta) (p : Nat) :
    personHashes labels (fm ++ [m]) p =
      personHashes labels fm p ++
        (if normPerson labels m.person = p then [m.hash] else []) := by
  rw [personHashes, List.filter_append, List.map_append, personHashes]
  by_cases hq : normPerson labels m.person = p
  · simp [List.filter, hq]
  · simp [List.filter, hq]


theorem normPerson_lt (labels : List String) (p : Option Int) (h : 0 < labels.length) :
    normPerson labels p < labels.length := by
  cases p with
  | none => simpa [normPerson] using h
  | some v =>
    rw [normPerson]
    by_cases hv : 0 ≤ v ∧ v < (labels.length : Int)
    · rw [if_pos hv]; omega
    · rw [if_neg hv]; exact h

theorem fp_invariant (labels : List String) : ∀ (fm : List FileMeta),
    ((fm.foldl (fpStep labels) (List.replicate labels.length [],
        List.replicate labels.length 1)).1.length = labels.length) ∧
    ((fm.foldl (fpStep labels) (List.replicate labels.length [],
        List.replicate labels.length 1)).2.length = labels.length) ∧
    ∀ p, p < labels.length →
      (fm.foldl (fpStep labels) (List.replicate labels.length [],
        List.replicate labels.length 1)).1.getD p [] =
        enum1 1 (distinctKeep (personHashes labels fm p)) ∧
      (fm.foldl (fpStep labels) (List.replicate labels.length [],
        List.replicate labels.length 1)).2.getD p 1 =
        (distinctKeep (personHashes labels fm p)).length + 1 := by
  intro fm
  induction fm using List.reverseRecOn with
  | nil =>
    refine ⟨by simp, by simp, ?_⟩
    intro p hp
    constructor
    · rw [List.foldl_nil, getD_replicate' hp]
      simp [personHashes, distinctKeep, enum1]
    · rw [List.foldl_nil, getD_replicate' hp]
      simp [personHashes, distinctKeep]
  | append_singleton fm m ih =>
    rcases ih with ⟨hlen1, hlen2, ih⟩
    rw [List.foldl_append, List.foldl_cons, List.foldl_nil]
    set st := fm.foldl (fpStep labels) (List.replicate labels.length [],
      List.replicate labels.length 1) with hst
    by_cases hlab : labels.length = 0
    · have h1 : st.1 = [] := List.length_eq_zero.mp (hlen1.trans hlab)
      have h2 : st.2 = [] := List.length_eq_zero.mp (hlen2.trans hlab)
      rw [fpStep]
      by_cases hk : hasKey (st.1.getD (normPerson labels m.person) []) m.hash
      · rw [if_pos hk]
        exact ⟨hlen1, hlen2, fun p hp => absurd hp (by omega)⟩
      · rw [if_neg hk]
        refine ⟨by simpa using hlen1, by simpa using hlen2, fun p hp => absurd hp (by omega)⟩
    · have hqlt : normPerson labels m.person < labels.length :=
        normPerson_lt labels m.person (by omega)
      have hpo : st.1.getD (normPerson labels m.person) [] =
          enum1 1 (distinctKeep (personHashes labels fm (normPerson labels m.person))) :=
        (ih _ hqlt).1
      have hnx : st.2.getD (normPerson labels m.person) 1 =
          (distinctKeep (personHashes labels fm (normPerson labels m.person))).length + 1 :=
        (ih _ hqlt).2
      have hkey : hasKey (st.1.getD (normPerson labels m.person) []) m.hash = true ↔
          m.hash ∈ personHashes labels fm (normPerson labels m.person) := by
        rw [hasKey_iff, hpo, enum1_map_fst, mem_distinctKeep]
      by_cases hk : hasKey (st.1.getD (normPerson labels m.person) []) m.hash
      · have hmem : m.hash ∈ personHashes labels fm (normPerson labels m.person) := hkey.mp hk
        rw [fpStep, if_pos hk]
        refine ⟨hlen1, hlen2, ?_⟩
        intro p hp
        rcases ih p hp with ⟨ih1, ih2⟩
        by_cases hpq : p = normPerson labels m.person
        · subst hpq
          rw [personHashes_snoc, if_pos rfl, ih1, ih2, distinctKeep_snoc, if_pos hmem]
          exact ⟨rfl, rfl⟩
        · rw [personHashes_snoc, if_neg (fun hx => hpq hx.symm), List.append_nil]
          exact ⟨ih1, ih2⟩
      · have hmem : m.hash ∉ personHashes labels fm (normPerson labels m.person) :=
          fun hx => hk (hkey.mpr hx)
        simp only [fpStep, if_neg hk]
        refine ⟨by simpa using hlen1, by simpa using hlen2, ?_⟩
        intro p hp
        rcases ih p hp with ⟨ih1, ih2⟩
        by_cases hpq : p = normPerson labels m.person
        · subst hpq
          have hlt1 : normPerson labels m.person < st.1.length := by rw [hlen1]; exact hp
          have hlt2 : normPerson labels m.person < st.2.length := by rw [hlen2]; exact hp
          constructor
          · rw [getD_set_self hlt1, hpo, hnx,
              personHashes_snoc, if_pos rfl, distinctKeep_snoc, if_neg hmem, enum1_snoc]
            have h3 : (1 : Nat) + (distinctKeep (personHashes labels fm
                (normPerson labels m.person))).length =
                (distinctKeep (personHashes labels fm (normPerson labels m.person))).length + 1 :=
              by omega
            rw [h3]
          · rw [getD_set_self hlt2, hnx,
              personHashes_snoc, if_pos rfl, distinctKeep_snoc, if_neg hmem,
              List.length_append, List.length_singleton]
        · constructor
          · rw [getD_set_ne (fun hx => hpq hx.symm), ih1,
              personHashes_snoc, if_neg (fun hx => hpq hx.symm), List.append_nil]
          · rw [getD_set_ne (fun hx => hpq hx.symm), ih2,
              personHashes_snoc, if_neg (fun hx => hpq hx.symm), List.append_nil]

/-- Claim C7: for each worker p, the first pass of
group_into_person_folders assigns to p's distinct digests exactly the
numbers 1..k (k the number of distinct digests among p's files), in the
order the digests first appear when the file list is iterated in
original scan order. -/
theorem claim_C7 (labels : List String) (fm : List FileMeta) (p : Nat) (hp : p < labels.length) :
    (group_into_person_folders_orders labels fm).getD p [] =
      enum1 1 (distinctKeep (personHashes labels fm p)) ∧
    ((group_into_person_folders_orders labels fm).getD p []).map Prod.snd =
      List.range' 1 (distinctKeep (personHashes labels fm p)).length := by
  have h := (fp_invariant labels fm).2.2 p hp
  rw [group_into_person_folders_orders]
  exact ⟨h.1, by rw [h.1, enum1_map_snd]⟩

/-- Five files for two workers; worker 1 sees digests x, x, z in scan
order (the file with out-of-range person 5 defaults to worker 0). -/
def c7File : List FileMeta :=
  [⟨"x", none, 0, some 1⟩, ⟨"y", none, 0, some 0⟩, ⟨"x", none, 0, some 1⟩,
   ⟨"z", none, 0, some 1⟩, ⟨"y", none, 0, some 5⟩]

theorem claim_C7_witness :
    1 < (["A", "B"] : List String).length ∧
    (group_into_person_folders_orders ["A", "B"] c7File).getD 1 [] =
      enum1 1 (distinctKeep (personHashes ["A", "B"] c7File 1)) ∧
    enum1 1 (distinctKeep (personHashes ["A", "B"] c7File 1)) = [("x", 1), ("z", 2)] :=
  ⟨by decide, (claim_C7 ["A", "B"] c7File 1 (by decide)).1, by decide⟩

/- ------------------------------------------------------------------
Claim C3: the greedy LPT balance bound.
------------------------------------------------------------------ -/

theorem insertDesc_perm (x : List Nat × ℚ) : ∀ (l : List (List Nat × ℚ)),
    (insertDesc x l).Perm (x :: l) := by
  intro l
  induction l with
  | nil => exact List.Perm.refl _
  | cons y ys ih =>
    rw [insertDesc]
    by_cases h : y.2 ≤ x.2
    · rw [if_pos h]
    · rw [if_neg h]
      exact ((ih.cons y).trans (List.Perm.swap x y ys))

theorem sortByAdjustedDesc_perm : ∀ (l : List (List Nat × ℚ)),
    (sortByAdjustedDesc l).Perm l := by
  intro l
  induction l with
  | nil => exact List.Perm.refl _
  | cons x xs ih =>
    rw [sortByAdjustedDesc, List.foldr_cons]
    exact (insertDesc_perm x _).trans (ih.cons x)

theorem le_foldr_max (a : ℚ) : ∀ (l : List ℚ), a ∈ l → a ≤ l.foldr max 0 := by
  intro l
  induction l with
  | nil => intro h; cases h
  | cons b bs ih =>
    intro h
    rcases List.mem_cons.mp h with rfl | h
    · exact le_max_left _ _
    · exact (ih h).trans (le_max_right _ _)

theorem foldr_max_nonneg : ∀ (l : List ℚ), 0 ≤ l.foldr max 0 := by
  intro l
  induction l with
  | nil => exact le_refl 0
  | cons b bs ih => exact ih.trans (le_max_right _ _)

theorem minIndex_lt (buckets : List ℚ) (pc : Nat) (h : 0 < pc) : minIndex buckets pc < pc := by
  rw [minIndex]
  have gen : ∀ (l : List Nat) (acc : Nat), acc < pc → (∀ p ∈ l, p < pc) →
      (l.foldl (fun best p => if buckets.getD p 0 < buckets.getD best 0 then p else best) acc) < pc := by
    intro l
    induction l with
    | nil => intro acc hacc _; exact hacc
    | cons p ps ih =>
      intro acc hacc hl
      rw [List.foldl_cons]
      by_cases hc : buckets.getD p 0 < buckets.getD acc 0
      · rw [if_pos hc]
        exact ih p (hl p (List.mem_cons_self _ _)) (fun q hq => hl q (List.mem_cons_of_mem _ hq))
      · rw [if_neg hc]
        exact ih acc hacc (fun q hq => hl q (List.mem_cons_of_mem _ hq))
  exact gen _ 0 h (fun p hp => List.mem_range.mp hp)

theorem minIndex_le (buckets : List ℚ) (pc : Nat) :
    ∀ p, p < pc → buckets.getD (minIndex buckets pc) 0 ≤ buckets.getD p 0 := by
  have gen : ∀ (l : List Nat) (acc : Nat),
      buckets.getD (l.foldl (fun best p => if buckets.getD p 0 < buckets.getD best 0 then p
        else best) acc) 0 ≤ buckets.getD acc 0 ∧
      ∀ p ∈ l, buckets.getD (l.foldl (fun best p => if buckets.getD p 0 < buckets.getD best 0
        then p else best) acc) 0 ≤ buckets.getD p 0 := by
    intro l
    induction l with
    | nil => intro acc; exact ⟨le_refl _, fun p hp => absurd hp (List.not_mem_nil p)⟩
    | cons p ps ih =>
      intro acc
      rw [List.foldl_cons]
      by_cases hc : buckets.getD p 0 < buckets.getD acc 0
      · rw [if_pos hc]
        refine ⟨(ih p).1.trans hc.le, ?_⟩
        intro q hq
        rcases List.mem_cons.mp hq with rfl | hq
        · exact (ih q).1
        · exact (ih p).2 q hq
      · rw [if_neg hc]
        refine ⟨(ih acc).1, ?_⟩
        intro q hq
        rcases List.mem_cons.mp hq with rfl | hq
        · exact (ih acc).1.trans (not_lt.mp hc)
        · exact (ih acc).2 q hq
  intro p hp
  exact (gen (List.range pc) 0).2 p (List.mem_range.mpr hp)

theorem assign_fold_balanced (pc : Nat) (M : ℚ) (hpc : 0 < pc) :
    ∀ (l : List (List Nat × ℚ)) (st : List ℚ × List Nat),
    (∀ c ∈ l, 0 ≤ c.2 ∧ c.2 ≤ M) → st.1.length = pc →
    (∀ p q, p < pc → q < pc → st.1.getD p 0 ≤ st.1.getD q 0 + M) →
    ((l.foldl (assignStep pc) st).1.length = pc ∧
      ∀ p q, p < pc → q < pc →
        (l.foldl (assignStep pc) st).1.getD p 0 ≤ (l.foldl (assignStep pc) st).1.getD q 0 + M) := by
  intro l
  induction l with
  | nil => intro st _ hlen hbal; exact ⟨hlen, hbal⟩
  | cons c cs ih =>
    intro st hl hlen hbal
    rw [List.foldl_cons]
    have hc := hl c (List.mem_cons_self _ _)
    set person := minIndex st.1 pc with hperson
    have hplt : person < pc := minIndex_lt st.1 pc hpc
    have hmin : ∀ p, p < pc → st.1.getD person 0 ≤ st.1.getD p 0 := minIndex_le st.1 pc
    refine ih (assignStep pc st c) (fun d hd => hl d (List.mem_cons_of_mem _ hd)) ?_ ?_
    · rw [assignStep]
      simp [hlen]
    · intro p q hp hq
      rw [assignStep]
      dsimp only
      rw [← hperson]
      have hl1 : person < st.1.length := by rw [hlen]; exact hplt
      have hM0 : (0:ℚ) ≤ M := hc.1.trans hc.2
      by_cases hpp : p = person
      · by_cases hqq : q = person
        · rw [hpp, hqq, getD_set_self hl1]
          linarith
        · rw [hpp, getD_set_self hl1, getD_set_ne (fun hx => hqq hx.symm)]
          have h1 : st.1.getD person 0 ≤ st.1.getD q 0 := hmin q hq
          linarith [hc.2]
      · rw [getD_set_ne (fun hx => hpp hx.symm)]
        by_cases hqq : q = person
        · rw [hqq, getD_set_self hl1]
          have h1 : st.1.getD p 0 ≤ st.1.getD person 0 + M := hbal p person hp hplt
          linarith [hc.1]
        · rw [getD_set_ne (fun hx => hqq hx.symm)]
          exact hbal p q hp hq

/-- Largest single cluster adjusted cost (0 when there is none). -/
def maxAdjusted (wa : WorkloadAssignment) (fm : List FileMeta) (comps : List (List Nat)) : ℚ :=
  ((compTimes wa fm comps).map Prod.snd).foldr max 0

/-- Claim C3: with at least one worker, the difference between any two
final bucket totals (hence between the largest and the smallest) is at
most the largest single cluster adjusted cost. -/
theorem claim_C3 (wa : WorkloadAssignment) (fm : List FileMeta) (comps : List (List Nat))
    (hpc : 1 ≤ wa.people_count) :
    ∀ p q, p < wa.people_count → q < wa.people_count →
      (assign_components_to_people wa fm comps).2.getD p 0
        - (assign_components_to_people wa fm comps).2.getD q 0
        ≤ maxAdjusted wa fm comps := by
  intro p q hp hq
  rw [assign_components_to_people]
  dsimp only
  rw [sub_le_iff_le_add']
  have hM0 : 0 ≤ maxAdjusted wa fm comps := foldr_max_nonneg _
  have hcond : ∀ c ∈ sortByAdjustedDesc (compTimes wa fm comps),
      0 ≤ c.2 ∧ c.2 ≤ maxAdjusted wa fm comps := by
    intro c hc
    have hmem : c ∈ compTimes wa fm comps :=
      (sortByAdjustedDesc_perm _).mem_iff.mp hc
    constructor
    · rcases List.mem_map.mp hmem with ⟨comp, _, rfl⟩
      exact le_max_left 0 _
    · exact le_foldr_max c.2 _ (List.mem_map.mpr ⟨c, hmem, rfl⟩)
  have hbal := assign_fold_balanced wa.people_count (maxAdjusted wa fm comps) (by omega)
    (sortByAdjustedDesc (compTimes wa fm comps))
    (List.replicate wa.people_count 0, List.replicate fm.length 0)
    hcond (by simp) ?_
  · have := hbal.2 p q hp hq
    linarith [this]
  · intro a b ha hb
    rw [getD_replicate' ha, getD_replicate' hb]
    linarith

theorem claim_C3_witness :
    1 ≤ c2Wa.people_count ∧
    (assign_components_to_people c2Wa c2File [[0, 1, 2], [3, 4]]).2.getD 0 0
      - (assign_components_to_people c2Wa c2File [[0, 1, 2], [3, 4]]).2.getD 1 0
      ≤ maxAdjusted c2Wa c2File [[0, 1, 2], [3, 4]] :=
  ⟨by decide, claim_C3 c2Wa c2File [[0, 1, 2], [3, 4]] (by decide) 0 1 (by decide) (by decide)⟩

/- ------------------------------------------------------------------
Claim C4: clusters are assigned atomically.
------------------------------------------------------------------ -/

theorem set_fold_length (person : Nat) : ∀ (c : List Nat) (acc : List Nat),
    (c.foldl (fun a idx => a.set idx person) acc).length = acc.length := by
  intro c
  induction c with
  | nil => intro acc; rfl
  | cons h t ih => intro acc; rw [List.foldl_cons, ih, List.length_set]

theorem set_fold_getD_not_mem (person : Nat) : ∀ (c : List Nat) (acc : List Nat) (a : Nat),
    a ∉ c → (c.foldl (fun a idx => a.set idx person) acc).getD a 0 = acc.getD a 0 := by
  intro c
  induction c with
  | nil => intro acc a _; rfl
  | cons h t ih =>
    intro acc a ha
    rw [List.foldl_cons, ih _ _ (fun hx => ha (List.mem_cons_of_mem _ hx)),
      getD_set_ne (fun hx => ha (by rw [← hx]; exact List.mem_cons_self _ _))]

theorem set_fold_getD_mem (person : Nat) : ∀ (c : List Nat) (acc : List Nat) (a : Nat),
    a ∈ c → a < acc.length → (c.foldl (fun a idx => a.set idx person) acc).getD a 0 = person := by
  intro c
  induction c with
  | nil => intro acc a ha _; cases ha
  | cons h t ih =>
    intro acc a ha hlt
    rw [List.foldl_cons]
    by_cases hat : a ∈ t
    · exact ih _ _ hat (by rw [List.length_set]; exact hlt)
    · have hah : a = h := by
        rcases List.mem_cons.mp ha with h1 | h1
        · exact h1
        · exact absurd h1 hat
      rw [set_fold_getD_not_mem person t _ _ hat, hah, getD_set_self (hah ▸ hlt)]

theorem assign_fold_assignment_length (pc : Nat) : ∀ (l : List (List Nat × ℚ)) (st : List ℚ × List Nat),
    ((l.foldl (assignStep pc) st).2).length = st.2.length := by
  intro l
  induction l with
  | nil => intro st; rfl
  | cons c cs ih =>
    intro st
    rw [List.foldl_cons, ih, assignStep, set_fold_length]

theorem assign_fold_untouched (pc : Nat) : ∀ (l : List (List Nat × ℚ)) (st : List ℚ × List Nat)
    (a : Nat), (∀ e ∈ l, a ∉ e.1) →
    ((l.foldl (assignStep pc) st).2).getD a 0 = st.2.getD a 0 := by
  intro l
  induction l with
  | nil => intro st a _; rfl
  | cons c cs ih =>
    intro st a ha
    rw [List.foldl_cons, ih _ _ (fun e he => ha e (List.mem_cons_of_mem _ he)), assignStep,
      set_fold_getD_not_mem (minIndex st.1 pc) c.1 _ _ (ha c (List.mem_cons_self _ _))]

/-- Claim C4: when the input clusters are pairwise disjoint and within
range (as make_components guarantees), any two indices of the same
cluster receive the same worker index: a cluster is never split. -/
theorem claim_C4 (wa : WorkloadAssignment) (fm : List FileMeta) (comps : List (List Nat))
    (hdisj : List.Pairwise (fun c d => ∀ x ∈ c, x ∉ d) comps)
    (hbound : ∀ c ∈ comps, ∀ x ∈ c, x < fm.length) :
    ∀ c ∈ comps, ∀ a ∈ c, ∀ b ∈ c,
      (assign_components_to_people wa fm comps).1.getD a 0 =
        (assign_components_to_people wa fm comps).1.getD b 0 := by
  intro c hc a ha b hb
  rw [assign_components_to_people]
  dsimp only
  have hP1 : List.Pairwise (fun e d : List Nat × ℚ => ∀ x ∈ e.1, x ∉ d.1)
      (compTimes wa fm comps) := by
    rw [compTimes]
    exact hdisj.map _ (fun c d h => h)
  have hsym : ∀ {e d : List Nat × ℚ}, (∀ x ∈ e.1, x ∉ d.1) → (∀ x ∈ d.1, x ∉ e.1) :=
    fun h x hx hxe => h x hxe hx
  have hP : List.Pairwise (fun e d : List Nat × ℚ => ∀ x ∈ e.1, x ∉ d.1)
      (sortByAdjustedDesc (compTimes wa fm comps)) :=
    ((sortByAdjustedDesc_perm _).pairwise_iff hsym).mpr hP1
  have hmem : (c, compAdjusted wa fm c) ∈ sortByAdjustedDesc (compTimes wa fm comps) :=
    (sortByAdjustedDesc_perm _).mem_iff.mpr (List.mem_map.mpr ⟨c, hc, rfl⟩)
  rcases List.append_of_mem hmem with ⟨s, t, hst⟩
  rw [hst, List.foldl_append, List.foldl_cons]
  rw [hst] at hP
  have hdisj_t : ∀ e ∈ t, ∀ x ∈ c, x ∉ e.1 := by
    have h2 := (List.pairwise_append.mp hP).2.1
    rcases List.pairwise_cons.mp h2 with ⟨hmid, -⟩
    exact fun e he x hx => hmid e he x hx
  have hlen_st1 : (s.foldl (assignStep wa.people_count)
      (List.replicate wa.people_count 0, List.replicate fm.length 0)).2.length = fm.length := by
    rw [assign_fold_assignment_length]
    exact List.length_replicate _ _
  have hmain : ∀ x ∈ c,
      ((t.foldl (assignStep wa.people_count)
        (assignStep wa.people_count
          (s.foldl (assignStep wa.people_count)
            (List.replicate wa.people_count 0, List.replicate fm.length 0))
          (c, compAdjusted wa fm c))).2).getD x 0 =
      minIndex (s.foldl (assignStep wa.people_count)
        (List.replicate wa.people_count 0, List.replicate fm.length 0)).1 wa.people_count := by
    intro x hx
    rw [assign_fold_untouched _ _ _ _ (fun e he => hdisj_t e he x hx), assignStep]
    dsimp only
    exact set_fold_getD_mem _ _ _ _ hx (by rw [hlen_st1]; exact hbound c hc x hx)
  rw [hmain a ha, hmain b hb]

theorem claim_C4_witness :
    List.Pairwise (fun c d => ∀ x ∈ c, x ∉ d) [[0, 1, 2], [3, 4]] ∧
    (assign_components_to_people c2Wa c2File [[0, 1, 2], [3, 4]]).1.getD 0 0 =
      (assign_components_to_people c2Wa c2File [[0, 1, 2], [3, 4]]).1.getD 1 0 :=
  ⟨by decide, claim_C4 c2Wa c2File [[0, 1, 2], [3, 4]] (by decide) (by decide)
    [0, 1, 2] (by decide) 0 (by decide) 1 (by decide)⟩

/- ------------------------------------------------------------------
Claims C1 and C10: soundness of the union-find clustering.
------------------------------------------------------------------ -/

/-- A root of the parent forest: parent[r] = r. -/
def isRootP (parent : List Nat) (r : Nat) : Prop := pstep parent r = r

/-- The chain of parent pointers from x ends at the root r. -/
def Reaches (parent : List Nat) (x r : Nat) : Prop :=
  (∃ k, piter parent k x = r) ∧ isRootP parent r

theorem piter_add (parent : List Nat) (a b x : Nat) :
    piter parent (a + b) x = piter parent b (piter parent a x) := by
  induction a generalizing x with
  | zero => rw [Nat.zero_add]; rfl
  | succ a ih =>
    have h1 : a + 1 + b = (a + b) + 1 := by omega
    rw [h1, piter, piter, ih]

theorem isRootP_piter {parent : List Nat} {r : Nat} (h : isRootP parent r) :
    ∀ k, piter parent k r = r := by
  intro k
  induction k with
  | zero => rfl
  | succ k ih => rw [piter, h, ih]

theorem reaches_unique {parent : List Nat} {x r1 r2 : Nat}
    (h1 : Reaches parent x r1) (h2 : Reaches parent x r2) : r1 = r2 := by
  rcases h1 with ⟨⟨k1, hk1⟩, hr1⟩
  rcases h2 with ⟨⟨k2, hk2⟩, hr2⟩
  rcases le_total k1 k2 with h | h
  · have : piter parent k2 x = piter parent (k2 - k1) (piter parent k1 x) := by
      rw [← piter_add]
      congr 1
      omega
    rw [hk2, hk1, isRootP_piter hr1] at this
    exact this.symm
  · have : piter parent k1 x = piter parent (k1 - k2) (piter parent k2 x) := by
      rw [← piter_add]
      congr 1
      omega
    rw [hk1, hk2, isRootP_piter hr2] at this
    exact this

theorem reaches_step {parent : List Nat} {y z r : Nat} (h : pstep parent y = z)
    (hr : Reaches parent z r) : Reaches parent y r := by
  rcases hr with ⟨⟨k, hk⟩, hroot⟩
  exact ⟨⟨k + 1, by rw [Nat.add_comm, piter_add, piter, piter, h, hk]⟩, hroot⟩

theorem pstep_set_ne {parent : List Nat} {x y : Nat} {v : Nat} (h : y ≠ x) :
    pstep (parent.set x v) y = pstep parent y := by
  rw [pstep, pstep, List.getD_eq_getElem?_getD, List.getD_eq_getElem?_getD,
    List.getElem?_set_ne (fun hx => h hx.symm)]

theorem pstep_set_self {parent : List Nat} {x v : Nat} (h : x < parent.length) :
    pstep (parent.set x v) x = v := by
  rw [pstep, List.getD_eq_getElem?_getD, List.getElem?_set_self h]
  rfl

/-- Invariant carried by the parent array through make_components: right
length, in-range entries, every chain reaches a root, and every parent
link only connects edge-connected artifacts. -/
structure UFInv (fm : List FileMeta) (parent : List Nat) : Prop where
  len : parent.length = fm.length
  inrange : ∀ x, x < fm.length → pstep parent x < fm.length
  term : ∀ x, x < fm.length → ∃ r, Reaches parent x r
  sound : ∀ x, x < fm.length → connected fm x (pstep parent x)

theorem piter_lt {fm : List FileMeta} {parent : List Nat}
    (hr : ∀ x, x < fm.length → pstep parent x < fm.length) :
    ∀ k x, x < fm.length → piter parent k x < fm.length := by
  intro k
  induction k with
  | zero => intro x hx; exact hx
  | succ k ih => intro x hx; rw [piter]; exact ih _ (hr x hx)

theorem reaches_lt {fm : List FileMeta} {parent : List Nat}
    (hr : ∀ x, x < fm.length → pstep parent x < fm.length)
    {x r : Nat} (hx : x < fm.length) (h : Reaches parent x r) : r < fm.length := by
  rcases h with ⟨⟨k, hk⟩, -⟩
  rw [← hk]
  exact piter_lt hr k x hx

theorem reaches_conn {fm : List FileMeta} {parent : List Nat} (H : UFInv fm parent) :
    ∀ {x r : Nat}, x < fm.length → Reaches parent x r → connected fm x r := by
  have gen : ∀ k x r, x < fm.length → piter parent k x = r → connected fm x r := by
    intro k
    induction k with
    | zero =>
      intro x r hx hk
      rw [piter] at hk
      rw [← hk]
      exact Relation.EqvGen.refl x
    | succ k ih =>
      intro x r hx hk
      rw [piter] at hk
      exact Relation.EqvGen.trans _ _ _ (H.sound x hx) (ih _ _ (H.inrange x hx) hk)
  intro x r hx h
  rcases h with ⟨⟨k, hk⟩, -⟩
  exact gen k x r hx hk

theorem compress_reaches_le {fm : List FileMeta} {parent : List Nat}
    (hlen : parent.length = fm.length)
    (hinr : ∀ x, x < fm.length → pstep parent x < fm.length)
    {x : Nat} (hx : x < fm.length) (hpx : pstep parent x ≠ x) :
    ∀ k y r, y < fm.length → piter parent k y = r → isRootP parent r →
      ∃ kk ≤ k, piter (parent.set x (pstep parent (pstep parent x))) kk y = r ∧
        isRootP (parent.set x (pstep parent (pstep parent x))) r := by
  intro k
  induction k using Nat.strong_induction_on with
  | _ k ih =>
    intro y r hy hk hr
    have hrx : r ≠ x := fun h => hpx (by rw [← h]; exact hr)
    have hroot1 : isRootP (parent.set x (pstep parent (pstep parent x))) r := by
      rw [isRootP, pstep_set_ne hrx]
      exact hr
    by_cases hyroot : isRootP parent y
    · have hry : r = y := by rw [← hk, isRootP_piter hyroot]
      subst hry
      exact ⟨0, Nat.zero_le k, rfl, hroot1⟩
    · cases k with
      | zero =>
        rw [piter] at hk
        exact absurd (hk ▸ hr) hyroot
      | succ k1 =>
        rw [piter] at hk
        by_cases hyx : y = x
        · subst hyx
          by_cases hpxroot : isRootP parent (pstep parent y)
          · have hrpx : r = pstep parent y := by rw [← hk, isRootP_piter hpxroot]
            refine ⟨1, by omega, ?_, hroot1⟩
            rw [piter, piter, pstep_set_self (by rw [hlen]; exact hy), hpxroot, ← hrpx]
          · cases k1 with
            | zero =>
              rw [piter] at hk
              exact absurd (hk ▸ hr) hpxroot
            | succ k2 =>
              rw [piter] at hk
              have hgxlt : pstep parent (pstep parent y) < fm.length :=
                hinr _ (hinr _ hy)
              obtain ⟨kk, hkk, hpit, hroot2⟩ := ih k2 (by omega) _ r hgxlt hk hr
              refine ⟨kk + 1, by omega, ?_, hroot2⟩
              rw [piter, pstep_set_self (by rw [hlen]; exact hy)]
              exact hpit
        · have hzlt : pstep parent y < fm.length := hinr y hy
          obtain ⟨kk, hkk, hpit, hroot2⟩ := ih k1 (by omega) _ r hzlt hk hr
          refine ⟨kk + 1, by omega, ?_, hroot2⟩
          rw [piter, pstep_set_ne hyx]
          exact hpit

theorem reach_bound {fm : List FileMeta} {parent : List Nat}
    (hinr : ∀ x, x < fm.length → pstep parent x < fm.length)
    {x : Nat} (hx : x < fm.length) :
    ∀ k, isRootP parent (piter parent k x) →
      ∃ kk ≤ fm.length, isRootP parent (piter parent kk x) := by
  intro k
  induction k using Nat.strong_induction_on with
  | _ k ih =>
    intro hk
    by_cases hkn : k ≤ fm.length
    · exact ⟨k, hkn, hk⟩
    · have hmaps : ∀ i ∈ Finset.range (fm.length + 1),
          piter parent i x ∈ Finset.range fm.length := by
        intro i _
        exact Finset.mem_range.mpr (piter_lt hinr i x hx)
      have hcard : (Finset.range fm.length).card < (Finset.range (fm.length + 1)).card := by
        rw [Finset.card_range, Finset.card_range]
        omega
      obtain ⟨i, hi, j, hj, hij, hfij⟩ :=
        Finset.exists_ne_map_eq_of_card_lt_of_maps_to hcard hmaps
      rw [Finset.mem_range] at hi hj
      have key : ∀ a b, a < b → b ≤ k → piter parent a x = piter parent b x →
          ∃ kk ≤ fm.length, isRootP parent (piter parent kk x) := by
        intro a b hab hbk hfab
        have h2 : piter parent k x = piter parent (k - b) (piter parent b x) := by
          rw [← piter_add]
          congr 1
          omega
        have h1 : piter parent (a + (k - b)) x
            = piter parent (k - b) (piter parent a x) := piter_add parent a (k - b) x
        have heq : piter parent k x = piter parent (a + (k - b)) x := by
          rw [h2, h1, hfab]
        rw [heq] at hk
        exact ih (a + (k - b)) (by omega) hk
      rcases Nat.lt_or_ge i j with hlt | hge
      · exact key i j hlt (by omega) hfij
      · have hlt : j < i := by omega
        exact key j i hlt (by omega) hfij.symm

theorem findAux_spec {fm : List FileMeta} :
    ∀ (fuel : Nat) (parent : List Nat) (x k : Nat), UFInv fm parent → x < fm.length →
      isRootP parent (piter parent k x) → k ≤ fuel →
      Reaches parent x (findAux fuel parent x).1 ∧ UFInv fm (findAux fuel parent x).2 ∧
      (∀ y r, y < fm.length → Reaches parent y r → Reaches (findAux fuel parent x).2 y r) := by
  intro fuel
  induction fuel with
  | zero =>
    intro parent x k H hx hk hfuel
    have hk0 : k = 0 := by omega
    subst hk0
    rw [piter] at hk
    exact ⟨⟨⟨0, rfl⟩, hk⟩, H, fun y r _ h => h⟩
  | succ fuel ih =>
    intro parent x k H hx hk hfuel
    by_cases hpx : pstep parent x = x
    · rw [findAux, if_pos hpx]
      exact ⟨⟨⟨0, rfl⟩, hpx⟩, H, fun y r _ h => h⟩
    · rw [findAux, if_neg hpx]
      have hpxlt : pstep parent x < fm.length := H.inrange x hx
      have hgxlt : pstep parent (pstep parent x) < fm.length := H.inrange _ hpxlt
      have hlen1 : (parent.set x (pstep parent (pstep parent x))).length = fm.length := by
        rw [List.length_set]
        exact H.len
      have H1 : UFInv fm (parent.set x (pstep parent (pstep parent x))) := by
        refine ⟨hlen1, ?_, ?_, ?_⟩
        · intro y hy
          by_cases hyx : y = x
          · rw [hyx, pstep_set_self (by rw [H.len]; exact hx)]
            exact hgxlt
          · rw [pstep_set_ne hyx]
            exact H.inrange y hy
        · intro y hy
          obtain ⟨r, ⟨⟨ky, hky⟩, hry⟩⟩ := H.term y hy
          obtain ⟨kk, -, hpit, hroot⟩ :=
            compress_reaches_le H.len H.inrange hx hpx ky y r hy hky hry
          exact ⟨r, ⟨⟨kk, hpit⟩, hroot⟩⟩
        · intro y hy
          by_cases hyx : y = x
          · rw [hyx, pstep_set_self (by rw [H.len]; exact hx)]
            exact Relation.EqvGen.trans _ _ _ (H.sound x hx) (H.sound _ hpxlt)
          · rw [pstep_set_ne hyx]
            exact H.sound y hy
      -- k cannot be zero since x is not a root
      have hk1 : k ≠ 0 := by
        intro h
        subst h
        rw [piter] at hk
        exact hpx hk
      obtain ⟨k1, rfl⟩ : ∃ k1, k = k1 + 1 := ⟨k - 1, by omega⟩
      -- the root reached from x in the original parent
      have hr : isRootP parent (piter parent (k1 + 1) x) := hk
      have hstep : piter parent (k1 + 1) x = piter parent k1 (pstep parent x) := by
        rw [piter]
      -- the same root is reached from the grandparent within k1 steps
      have hrgx : ∃ kg, kg ≤ k1 ∧
          piter parent kg (pstep parent (pstep parent x)) = piter parent (k1 + 1) x := by
        by_cases hpxroot : isRootP parent (pstep parent x)
        · refine ⟨0, Nat.zero_le _, ?_⟩
          rw [piter, hstep, isRootP_piter hpxroot]
          exact hpxroot
        · cases k1 with
          | zero =>
            rw [hstep, piter] at hr
            exact absurd hr hpxroot
          | succ k2 =>
            refine ⟨k2, by omega, ?_⟩
            rw [hstep, piter]
      obtain ⟨kg, hkg, hgx_eq⟩ := hrgx
      obtain ⟨kk, hkk, hpit, hroot1⟩ :=
        compress_reaches_le H.len H.inrange hx hpx kg
          (pstep parent (pstep parent x)) (piter parent (k1 + 1) x) hgxlt hgx_eq hr
      have hrec := ih (parent.set x (pstep parent (pstep parent x)))
        (pstep parent (pstep parent x)) kk H1 hgxlt (by rw [hpit]; exact hroot1)
        (by omega)
      rcases hrec with ⟨hA, hB, hC⟩
      have hreach1 : Reaches (parent.set x (pstep parent (pstep parent x)))
          (pstep parent (pstep parent x)) (piter parent (k1 + 1) x) :=
        ⟨⟨kk, hpit⟩, hroot1⟩
      have hres_eq : (findAux fuel (parent.set x (pstep parent (pstep parent x)))
          (pstep parent (pstep parent x))).1 = piter parent (k1 + 1) x :=
        reaches_unique hA hreach1
      refine ⟨?_, hB, ?_⟩
      · rw [hres_eq]
        exact ⟨⟨k1 + 1, rfl⟩, hr⟩
      · intro y r hy hyr
        rcases hyr with ⟨⟨ky, hky⟩, hry⟩
        obtain ⟨kk2, -, hpit2, hroot2⟩ :=
          compress_reaches_le H.len H.inrange hx hpx ky y r hy hky hry
        exact hC y r hy ⟨⟨kk2, hpit2⟩, hroot2⟩

theorem find_spec {fm : List FileMeta} {parent : List Nat} {x : Nat}
    (H : UFInv fm parent) (hx : x < fm.length) :
    Reaches parent x (find parent x).1 ∧ UFInv fm (find parent x).2 ∧
    (∀ y r, y < fm.length → Reaches parent y r → Reaches (find parent x).2 y r) := by
  obtain ⟨r, ⟨⟨k, hk⟩, hr⟩⟩ := H.term x hx
  obtain ⟨kk, hkk, hroot⟩ := reach_bound H.inrange hx k (by rw [hk]; exact hr)
  rw [find]
  exact findAux_spec parent.length parent x kk H hx hroot (by rw [H.len]; exact hkk)

theorem union_spec {fm : List FileMeta} {parent : List Nat} {a b : Nat}
    (H : UFInv fm parent) (ha : a < fm.length) (hb : b < fm.length)
    (hconn : connected fm a b) : UFInv fm (union parent a b) := by
  obtain ⟨hRa, H1, hC1⟩ := find_spec H ha
  obtain ⟨hRb, H2, hC2⟩ := find_spec H1 hb
  have hRa2 : Reaches (find (find parent a).2 b).2 a (find parent a).1 :=
    hC2 a _ ha (hC1 a _ ha hRa)
  have hRb2 : Reaches (find (find parent a).2 b).2 b (find (find parent a).2 b).1 :=
    hC2 b _ hb hRb
  have hralt : (find parent a).1 < fm.length := reaches_lt H.inrange ha hRa
  have hrblt : (find (find parent a).2 b).1 < fm.length := reaches_lt H1.inrange hb hRb
  have hconn_ra : connected fm a (find parent a).1 := reaches_conn H ha hRa
  have hconn_rb : connected fm b (find (find parent a).2 b).1 := reaches_conn H1 hb hRb
  rw [union]
  by_cases hne : (find parent a).1 ≠ (find (find parent a).2 b).1
  · rw [if_pos hne]
    have hlen3 : ((find (find parent a).2 b).2.set (find (find parent a).2 b).1
        (find parent a).1).length = fm.length := by
      rw [List.length_set]
      exact H2.len
    have hrb_root : isRootP (find (find parent a).2 b).2 (find (find parent a).2 b).1 :=
      hRb2.2
    have hra_root : isRootP (find (find parent a).2 b).2 (find parent a).1 :=
      hRa2.2
    refine ⟨hlen3, ?_, ?_, ?_⟩
    · intro y hy
      by_cases hyrb : y = (find (find parent a).2 b).1
      · rw [hyrb, pstep_set_self (by rw [H2.len]; exact hrblt)]
        exact hralt
      · rw [pstep_set_ne hyrb]
        exact H2.inrange y hy
    · -- termination for the re-rooted forest
      intro y hy
      obtain ⟨r, ⟨⟨k, hk⟩, hr⟩⟩ := H2.term y hy
      have gen : ∀ k y, y < fm.length →
          isRootP (find (find parent a).2 b).2 (piter (find (find parent a).2 b).2 k y) →
          ∃ rr, Reaches ((find (find parent a).2 b).2.set (find (find parent a).2 b).1
            (find parent a).1) y rr := by
        intro k
        induction k using Nat.strong_induction_on with
        | _ k ihk =>
          intro y hy hk
          by_cases hyroot : isRootP (find (find parent a).2 b).2 y
          · by_cases hyrb : y = (find (find parent a).2 b).1
            · refine ⟨(find parent a).1, ⟨⟨1, ?_⟩, ?_⟩⟩
              · rw [piter, piter, hyrb, pstep_set_self (by rw [H2.len]; exact hrblt)]
              · rw [isRootP, pstep_set_ne hne]
                exact hra_root
            · exact ⟨y, ⟨⟨0, rfl⟩, by rw [isRootP, pstep_set_ne hyrb]; exact hyroot⟩⟩
          · have hknz : k ≠ 0 := by
              intro h
              subst h
              rw [piter] at hk
              exact hyroot hk
            obtain ⟨k2, rfl⟩ : ∃ k2, k = k2 + 1 := ⟨k - 1, by omega⟩
            rw [piter] at hk
            have hyrb : y ≠ (find (find parent a).2 b).1 := by
              intro h
              rw [h] at hyroot
              exact hyroot hrb_root
            obtain ⟨rr, hrr⟩ := ihk k2 (by omega) _ (H2.inrange y hy) hk
            exact ⟨rr, reaches_step (pstep_set_ne hyrb) hrr⟩
      exact gen k y hy (by rw [hk]; exact hr)
    · intro y hy
      by_cases hyrb : y = (find (find parent a).2 b).1
      · rw [hyrb, pstep_set_self (by rw [H2.len]; exact hrblt)]
        exact Relation.EqvGen.trans _ _ _
          (Relation.EqvGen.symm _ _ hconn_rb)
          (Relation.EqvGen.trans _ _ _ (Relation.EqvGen.symm _ _ hconn) hconn_ra)
      · rw [pstep_set_ne hyrb]
        exact H2.sound y hy
  · rw [if_neg hne]
    exact H2

theorem init_inv (fm : List FileMeta) : UFInv fm (List.range fm.length) := by
  have hpstep : ∀ x, x < fm.length → pstep (List.range fm.length) x = x := by
    intro x hx
    rw [pstep, List.getD_eq_getElem?_getD, List.getElem?_range hx]
    rfl
  refine ⟨List.length_range _, ?_, ?_, ?_⟩
  · intro x hx
    rw [hpstep x hx]
    exact hx
  · intro x hx
    exact ⟨x, ⟨⟨0, rfl⟩, hpstep x hx⟩⟩
  · intro x hx
    rw [hpstep x hx]
    exact Relation.EqvGen.refl x

theorem runUnions_inv {fm : List FileMeta} :
    ∀ (pairs : List (Nat × Nat)) (parent : List Nat), UFInv fm parent →
    (∀ pr ∈ pairs, pr.1 < fm.length ∧ pr.2 < fm.length ∧ connected fm pr.1 pr.2) →
    UFInv fm (runUnions parent pairs) := by
  intro pairs
  induction pairs with
  | nil => intro parent H _; exact H
  | cons pr rest ih =>
    intro parent H hp
    rw [runUnions, List.foldl_cons]
    have h1 := hp pr (List.mem_cons_self _ _)
    exact ih _ (union_spec H h1.1 h1.2.1 h1.2.2)
      (fun q hq => hp q (List.mem_cons_of_mem _ hq))

theorem memG_of_groupAdd {κ : Type} [DecidableEq κ] :
    ∀ (gs : List (κ × List Nat)) (k : κ) (i : Nat) (e : κ × List Nat) (j : Nat),
    e ∈ groupAdd gs k i → j ∈ e.2 →
    (∃ e₀ ∈ gs, e₀.1 = e.1 ∧ j ∈ e₀.2) ∨ (j = i ∧ e.1 = k) := by
  intro gs
  induction gs with
  | nil =>
    intro k i e j he hj
    rw [groupAdd] at he
    rcases List.mem_singleton.mp he with rfl
    rcases List.mem_singleton.mp hj with rfl
    exact Or.inr ⟨rfl, rfl⟩
  | cons e₀ rest ih =>
    intro k i e j he hj
    rw [groupAdd] at he
    by_cases hk : e₀.1 = k
    · rw [if_pos hk] at he
      rcases List.mem_cons.mp he with rfl | hrest
      · rcases List.mem_append.mp hj with hj0 | hj1
        · exact Or.inl ⟨e₀, List.mem_cons_self _ _, rfl, hj0⟩
        · rcases List.mem_singleton.mp hj1 with rfl
          exact Or.inr ⟨rfl, hk⟩
      · exact Or.inl ⟨e, List.mem_cons_of_mem _ hrest, rfl, hj⟩
    · rw [if_neg hk] at he
      rcases List.mem_cons.mp he with rfl | hrest
      · exact Or.inl ⟨e, List.mem_cons_self _ _, rfl, hj⟩
      · rcases ih k i e j hrest hj with ⟨e₁, he₁, h1, h2⟩ | h
        · exact Or.inl ⟨e₁, List.mem_cons_of_mem _ he₁, h1, h2⟩
        · exact Or.inr h

theorem buildHashMapAux_inv (fm : List FileMeta) :
    ∀ (l : List FileMeta) (i : Nat) (gs : List (String × List Nat)),
    l = fm.drop i →
    (∀ e ∈ gs, ∀ j ∈ e.2, j < fm.length ∧ (fm.getD j default).hash = e.1) →
    (∀ e ∈ buildHashMapAux l i gs, ∀ j ∈ e.2,
      j < fm.length ∧ (fm.getD j default).hash = e.1) := by
  intro l
  induction l with
  | nil => intro i gs _ hgs; exact hgs
  | cons m rest ih =>
    intro i gs hdrop hgs
    have hilt : i < fm.length := by
      by_contra hge
      rw [List.drop_eq_nil_of_le (by omega)] at hdrop
      cases hdrop
    have hm : fm.getD i default = m := by
      have h0 : (fm.drop i)[0]? = some m := by rw [← hdrop]; simp
      rw [List.getElem?_drop, Nat.add_zero] at h0
      rw [List.getD_eq_getElem?_getD, h0]
      rfl
    have hrest : rest = fm.drop (i + 1) := by
      rw [← List.tail_drop, ← hdrop]
      rfl
    rw [buildHashMapAux]
    refine ih (i + 1) _ hrest ?_
    intro e he j hj
    rcases memG_of_groupAdd gs m.hash i e j he hj with ⟨e₀, he₀, h1, h2⟩ | ⟨rfl, h2⟩
    · rw [← h1]
      exact hgs e₀ he₀ j h2
    · rw [h2, hm]
      exact ⟨hilt, rfl⟩

theorem buildIdMapAux_inv (fm : List FileMeta) :
    ∀ (l : List FileMeta) (i : Nat) (gs : List (String × List Nat)),
    l = fm.drop i →
    (∀ e ∈ gs, ∀ j ∈ e.2, j < fm.length ∧ idKey (fm.getD j default).id_item = some e.1) →
    (∀ e ∈ buildIdMapAux l i gs, ∀ j ∈ e.2,
      j < fm.length ∧ idKey (fm.getD j default).id_item = some e.1) := by
  intro l
  induction l with
  | nil => intro i gs _ hgs; exact hgs
  | cons m rest ih =>
    intro i gs hdrop hgs
    have hilt : i < fm.length := by
      by_contra hge
      rw [List.drop_eq_nil_of_le (by omega)] at hdrop
      cases hdrop
    have hm : fm.getD i default = m := by
      have h0 : (fm.drop i)[0]? = some m := by rw [← hdrop]; simp
      rw [List.getElem?_drop, Nat.add_zero] at h0
      rw [List.getD_eq_getElem?_getD, h0]
      rfl
    have hrest : rest = fm.drop (i + 1) := by
      rw [← List.tail_drop, ← hdrop]
      rfl
    rw [buildIdMapAux]
    refine ih (i + 1) _ hrest ?_
    cases hid : m.id_item with
    | none => exact hgs
    | some s =>
      dsimp only
      by_cases hs : s = ""
      · rw [if_pos hs]
        exact hgs
      · rw [if_neg hs]
        intro e he j hj
        rcases memG_of_groupAdd gs s i e j he hj with ⟨e₀, he₀, h1, h2⟩ | ⟨rfl, h2⟩
        · rw [← h1]
          exact hgs e₀ he₀ j h2
        · refine ⟨hilt, ?_⟩
          rw [h2, hm, hid, idKey, if_neg hs]

theorem mem_unionPairs {κ : Type} {groups : List (κ × List Nat)} {pr : Nat × Nat}
    (h : pr ∈ unionPairs groups) : ∃ e ∈ groups, pr.1 ∈ e.2 ∧ pr.2 ∈ e.2 := by
  rw [unionPairs] at h
  rcases List.mem_flatMap.mp h with ⟨e, he, hpr⟩
  rcases List.mem_map.mp hpr with ⟨j, hj, rfl⟩
  refine ⟨e, he, ?_, ?_⟩
  · cases hl : e.2 with
    | nil => rw [hl] at hj; cases hj
    | cons h0 t0 =>
      rw [hl] at hj
      simp
  · cases hl : e.2 with
    | nil => rw [hl] at hj; cases hj
    | cons h0 t0 =>
      rw [hl] at hj
      rw [List.tail_cons] at hj
      simp [hj]

/-- The parent array after all hash and id unions of make_components. -/
def finalParent (fm : List FileMeta) : List Nat :=
  runUnions (runUnions (List.range fm.length) (unionPairs (buildHashMap fm)))
    (unionPairs (buildIdMap fm))

/-- Canonical root of an artifact index in the post-union forest. -/
def rootU (fm : List FileMeta) (i : Nat) : Nat := (find (finalParent fm) i).1

theorem finalParent_inv (fm : List FileMeta) : UFInv fm (finalParent fm) := by
  rw [finalParent]
  refine runUnions_inv _ _ (runUnions_inv _ _ (init_inv fm) ?_) ?_
  · intro pr hpr
    rcases mem_unionPairs hpr with ⟨e, he, h1, h2⟩
    have hh1 := buildHashMapAux_inv fm fm 0 [] rfl (by intro e he; cases he) e he _ h1
    have hh2 := buildHashMapAux_inv fm fm 0 [] rfl (by intro e he; cases he) e he _ h2
    refine ⟨hh1.1, hh2.1, Relation.EqvGen.rel _ _ ?_⟩
    exact ⟨hh1.1, hh2.1, Or.inl (by rw [shareDigest, hh1.2, hh2.2])⟩
  · intro pr hpr
    rcases mem_unionPairs hpr with ⟨e, he, h1, h2⟩
    have hh1 := buildIdMapAux_inv fm fm 0 [] rfl (by intro e he; cases he) e he _ h1
    have hh2 := buildIdMapAux_inv fm fm 0 [] rfl (by intro e he; cases he) e he _ h2
    refine ⟨hh1.1, hh2.1, Relation.EqvGen.rel _ _ ?_⟩
    exact ⟨hh1.1, hh2.1, Or.inr ⟨e.1, hh1.2, hh2.2⟩⟩

theorem rootU_reaches (fm : List FileMeta) {i : Nat} (hi : i < fm.length) :
    Reaches (finalParent fm) i (rootU fm i) :=
  (find_spec (finalParent_inv fm) hi).1

theorem rootU_conn (fm : List FileMeta) {i : Nat} (hi : i < fm.length) :
    connected fm i (rootU fm i) :=
  reaches_conn (finalParent_inv fm) hi (rootU_reaches fm hi)

/-- The pure grouping by canonical root that the threaded comps loop of
make_components computes. -/
def buildGroupsPure (fm : List FileMeta) : List (Nat × List Nat) :=
  (List.range fm.length).foldl (fun g j => groupAdd g (rootU fm j) j) []

theorem compsFold_bridge (fm : List FileMeta) :
    ∀ (l : List Nat) (parent : List Nat) (gs : List (Nat × List Nat)),
    (∀ i ∈ l, i < fm.length) → UFInv fm parent →
    (∀ y r, y < fm.length → Reaches (finalParent fm) y r → Reaches parent y r) →
    (l.foldl compsFold (parent, gs)).2 =
      l.foldl (fun g j => groupAdd g (rootU fm j) j) gs := by
  intro l
  induction l with
  | nil => intro parent gs _ _ _; rfl
  | cons i rest ih =>
    intro parent gs hl H hpres
    have hi : i < fm.length := hl i (List.mem_cons_self _ _)
    obtain ⟨hA, hB, hC⟩ := find_spec H hi
    have hUroot := rootU_reaches fm hi
    have hAeq : (find parent i).1 = rootU fm i :=
      reaches_unique hA (hpres i _ hi hUroot)
    rw [List.foldl_cons, List.foldl_cons, compsFold]
    dsimp only
    rw [hAeq]
    exact ih _ _ (fun j hj => hl j (List.mem_cons_of_mem _ hj)) hB
      (fun y r hy hr => hC y r hy (hpres y r hy hr))

theorem make_components_pure (fm : List FileMeta) :
    make_components fm = (buildGroupsPure fm).map Prod.snd := by
  rw [make_components, buildGroupsPure]
  have h := compsFold_bridge fm (List.range fm.length) (finalParent fm) []
    (fun i hi => List.mem_range.mp hi) (finalParent_inv fm)
    (fun y r _ hr => hr)
  rw [← finalParent]
  rw [h]

theorem groupAdd_of_not_mem {κ : Type} [DecidableEq κ] :
    ∀ {gs : List (κ × List Nat)} {k : κ} (i : Nat), k ∉ gs.map Prod.fst →
    groupAdd gs k i = gs ++ [(k, [i])] := by
  intro gs
  induction gs with
  | nil => intro k i _; rfl
  | cons e rest ih =>
    intro k i hk
    simp only [List.map_cons, List.mem_cons] at hk
    push_neg at hk
    rw [groupAdd, if_neg (fun h => hk.1 h.symm), ih i hk.2, List.cons_append]

theorem groupAdd_of_mem {κ : Type} [DecidableEq κ] :
    ∀ {gs : List (κ × List Nat)} {k : κ} (i : Nat), k ∈ gs.map Prod.fst →
    ∃ pre l post, gs = pre ++ (k, l) :: post ∧ k ∉ pre.map Prod.fst ∧
      groupAdd gs k i = pre ++ (k, l ++ [i]) :: post := by
  intro gs
  induction gs with
  | nil => intro k i hk; cases hk
  | cons e rest ih =>
    intro k i hk
    by_cases hek : e.1 = k
    · refine ⟨[], e.2, rest, ?_, by simp, ?_⟩
      · rw [List.nil_append, ← hek]
      · rw [groupAdd, if_pos hek, hek, List.nil_append]
    · have hkr : k ∈ rest.map Prod.fst := by
        rcases List.mem_cons.mp hk with h | h
        · exact absurd h.symm hek
        · exact h
      obtain ⟨pre, l, post, hsplit, hpre, hadd⟩ := ih i hkr
      refine ⟨e :: pre, l, post, by rw [hsplit, List.cons_append], ?_, ?_⟩
      · simp only [List.map_cons, List.mem_cons]
        push_neg
        exact ⟨fun h => hek h.symm, hpre⟩
      · rw [groupAdd, if_neg hek, hadd, List.cons_append]

/-- Invariant of the root-keyed grouping fold: keys are distinct, each
group lists exactly the processed indices with that root (in order), and
every processed index has its root among the keys. -/
def GroupsInv (key : Nat → Nat) (processed : List Nat) (gs : List (Nat × List Nat)) : Prop :=
  (gs.map Prod.fst).Nodup ∧
  (∀ e ∈ gs, e.2 = processed.filter (fun a => decide (key a = e.1))) ∧
  (∀ a ∈ processed, key a ∈ gs.map Prod.fst)

theorem groupsInv_step (key : Nat → Nat) (processed : List Nat) (gs : List (Nat × List Nat))
    (j : Nat) (hinv : GroupsInv key processed gs) :
    GroupsInv key (processed ++ [j]) (groupAdd gs (key j) j) := by
  rcases hinv with ⟨hnd, hfil, htot⟩
  by_cases hmem : key j ∈ gs.map Prod.fst
  · obtain ⟨pre, l, post, hsplit, hpre, hadd⟩ := groupAdd_of_mem j hmem
    have hndkeys : ((pre ++ (key j, l) :: post).map Prod.fst).Nodup := by
      rw [← hsplit]; exact hnd
    rw [List.map_append, List.map_cons] at hndkeys
    have hkpost : key j ∉ post.map Prod.fst := by
      rcases List.nodup_append.mp hndkeys with ⟨-, hnd2, -⟩
      exact (List.nodup_cons.mp hnd2).1
    have hkeys : (groupAdd gs (key j) j).map Prod.fst = gs.map Prod.fst := by
      rw [hadd, hsplit, List.map_append, List.map_append, List.map_cons, List.map_cons]
    refine ⟨?_, ?_, ?_⟩
    · rw [hkeys]
      exact hnd
    · intro e he
      rw [hadd] at he
      rcases List.mem_append.mp he with hel | her
      · have hefst : e.1 ≠ key j := by
          intro h
          exact hpre (h ▸ List.mem_map_of_mem Prod.fst hel)
        have heg : e ∈ gs := by
          rw [hsplit]
          exact List.mem_append.mpr (Or.inl hel)
        rw [hfil e heg, List.filter_append]
        have : List.filter (fun a => decide (key a = e.1)) [j] = [] := by
          simp [hefst.symm]
        rw [this, List.append_nil]
      · rcases List.mem_cons.mp her with rfl | hpost
        · have hl : l = processed.filter (fun a => decide (key a = key j)) := by
            have hgmem : ((key j, l) : Nat × List Nat) ∈ gs := by
              rw [hsplit]
              exact List.mem_append.mpr (Or.inr (List.mem_cons_self _ _))
            exact hfil _ hgmem
          show l ++ [j] = List.filter (fun a => decide (key a = key j)) (processed ++ [j])
          rw [List.filter_append, ← hl]
          simp
        · have hefst : e.1 ≠ key j := by
            intro h
            exact hkpost (h ▸ List.mem_map_of_mem Prod.fst hpost)
          have heg : e ∈ gs := by
            rw [hsplit]
            exact List.mem_append.mpr (Or.inr (List.mem_cons_of_mem _ hpost))
          rw [hfil e heg, List.filter_append]
          have : List.filter (fun a => decide (key a = e.1)) [j] = [] := by
            simp
            intro h
            exact hefst h.symm
          rw [this, List.append_nil]
    · intro a ha
      rw [hkeys]
      rcases List.mem_append.mp ha with h | h
      · exact htot a h
      · rcases List.mem_singleton.mp h with rfl
        exact hmem
  · rw [groupAdd_of_not_mem j hmem]
    refine ⟨?_, ?_, ?_⟩
    · rw [List.map_append]
      refine List.Nodup.append hnd (by simp) ?_
      intro a ha hb
      simp only [List.map_cons, List.map_nil, List.mem_singleton] at hb
      rw [hb] at ha
      exact hmem ha
    · intro e he
      rcases List.mem_append.mp he with hel | her
      · have hefst : e.1 ≠ key j := by
          intro h
          exact hmem (h ▸ List.mem_map_of_mem Prod.fst hel)
        rw [hfil e hel, List.filter_append]
        have : List.filter (fun a => decide (key a = e.1)) [j] = [] := by
          simp
          intro h
          exact hefst h.symm
        rw [this, List.append_nil]
      · rcases List.mem_singleton.mp her with rfl
        simp only
        rw [List.filter_append]
        have h1 : List.filter (fun a => decide (key a = key j)) processed = [] := by
          rw [List.filter_eq_nil_iff]
          intro a ha
          simp only [decide_eq_true_eq]
          intro h
          exact hmem (h ▸ htot a ha)
        rw [h1, List.nil_append]
        simp
    · intro a ha
      rw [List.map_append]
      rcases List.mem_append.mp ha with h | h
      · exact List.mem_append.mpr (Or.inl (htot a h))
      · rcases List.mem_singleton.mp h with rfl
        refine List.mem_append.mpr (Or.inr ?_)
        simp

theorem groupsInv_fold (key : Nat → Nat) :
    ∀ (l : List Nat) (processed : List Nat) (gs : List (Nat × List Nat)),
    GroupsInv key processed gs →
    GroupsInv key (processed ++ l) (l.foldl (fun g j => groupAdd g (key j) j) gs) := by
  intro l
  induction l with
  | nil => intro processed gs h; rw [List.append_nil]; exact h
  | cons j rest ih =>
    intro processed gs h
    rw [List.foldl_cons]
    have h2 := ih (processed ++ [j]) _ (groupsInv_step key processed gs j h)
    rw [List.append_assoc] at h2
    exact h2

theorem buildGroupsPure_inv (fm : List FileMeta) :
    GroupsInv (rootU fm) (List.range fm.length) (buildGroupsPure fm) := by
  have hbase : GroupsInv (rootU fm) [] [] := by
    refine ⟨by simp, ?_, ?_⟩
    · intro e he
      cases he
    · intro a ha
      cases ha
  have h := groupsInv_fold (rootU fm) (List.range fm.length) [] [] hbase
  rw [List.nil_append] at h
  exact h

/-- Claim C1: make_components returns pairwise disjoint clusters whose
union is exactly the index set of the input list, and any two indices
in one cluster are linked by a chain of shared-digest or
shared-logical-item edges. -/
theorem claim_C1 (fm : List FileMeta) :
    (∀ ci cj, ci < (make_components fm).length → cj < (make_components fm).length →
      ci ≠ cj → ∀ x ∈ (make_components fm).getD ci [], x ∉ (make_components fm).getD cj []) ∧
    (∀ x, (∃ c ∈ make_components fm, x ∈ c) ↔ x < fm.length) ∧
    (∀ c ∈ make_components fm, ∀ a ∈ c, ∀ b ∈ c, connected fm a b) := by
  obtain ⟨hnd, hfil, htot⟩ := buildGroupsPure_inv fm
  have hmc := make_components_pure fm
  have hget : ∀ idx, (hidx : idx < (buildGroupsPure fm).length) →
      (make_components fm).getD idx [] = ((buildGroupsPure fm)[idx]).2 := by
    intro idx hidx
    rw [hmc, List.getD_eq_getElem?_getD, List.getElem?_map,
      List.getElem?_eq_getElem hidx]
    rfl
  have hlen : (make_components fm).length = (buildGroupsPure fm).length := by
    rw [hmc, List.length_map]
  refine ⟨?_, ?_, ?_⟩
  · intro ci cj hci hcj hne x hxi hxj
    rw [hlen] at hci hcj
    rw [hget ci hci] at hxi
    rw [hget cj hcj] at hxj
    have h1 := hfil _ (List.getElem_mem hci)
    have h2 := hfil _ (List.getElem_mem hcj)
    rw [h1] at hxi
    rw [h2] at hxj
    have hk1 := of_decide_eq_true (List.mem_filter.mp hxi).2
    have hk2 := of_decide_eq_true (List.mem_filter.mp hxj).2
    have hkeq : ((buildGroupsPure fm)[ci]).1 = ((buildGroupsPure fm)[cj]).1 := by
      rw [← hk1, ← hk2]
    have hcim : ci < (List.map Prod.fst (buildGroupsPure fm)).length := by
      rw [List.length_map]
      exact hci
    have hcjm : cj < (List.map Prod.fst (buildGroupsPure fm)).length := by
      rw [List.length_map]
      exact hcj
    have hmap : (List.map Prod.fst (buildGroupsPure fm))[ci] =
        (List.map Prod.fst (buildGroupsPure fm))[cj] := by
      rw [List.getElem_map, List.getElem_map]
      exact hkeq
    have := (List.Nodup.getElem_inj_iff hnd).mp hmap
    exact hne this
  · intro x
    constructor
    · rintro ⟨c, hc, hx⟩
      rw [hmc] at hc
      rcases List.mem_map.mp hc with ⟨e, he, rfl⟩
      rw [hfil e he] at hx
      exact List.mem_range.mp (List.mem_filter.mp hx).1
    · intro hx
      have hroot := htot x (List.mem_range.mpr hx)
      rcases List.mem_map.mp hroot with ⟨e, he, hfst⟩
      refine ⟨e.2, by rw [hmc]; exact List.mem_map_of_mem Prod.snd he, ?_⟩
      rw [hfil e he]
      refine List.mem_filter.mpr ⟨List.mem_range.mpr hx, ?_⟩
      rw [decide_eq_true_eq, hfst]
  · intro c hc a ha b hb
    rw [hmc] at hc
    rcases List.mem_map.mp hc with ⟨e, he, rfl⟩
    rw [hfil e he] at ha hb
    have hafm : a < fm.length := List.mem_range.mp (List.mem_filter.mp ha).1
    have hbfm : b < fm.length := List.mem_range.mp (List.mem_filter.mp hb).1
    have hka := of_decide_eq_true (List.mem_filter.mp ha).2
    have hkb := of_decide_eq_true (List.mem_filter.mp hb).2
    have hroots : rootU fm a = rootU fm b := by rw [hka, hkb]
    have h1 := rootU_conn fm hafm
    have h2 := rootU_conn fm hbfm
    rw [hroots] at h1
    exact Relation.EqvGen.trans _ _ _ h1 (Relation.EqvGen.symm _ _ h2)

theorem claim_C1_witness :
    (0 : Nat) ≠ 1 ∧ (3 : Nat) ∈ (make_components c2File).getD 1 [] ∧
    (3 : Nat) ∉ (make_components c2File).getD 0 [] :=
  ⟨by decide, by decide,
    (claim_C1 c2File).1 1 0 (by decide) (by decide) (by decide) 3 (by decide)⟩

theorem normalizeEmptyIds_hash (m : FileMeta) :
    ((if m.id_item = some "" then
      { hash := m.hash, id_item := none, seconds := m.seconds,
        person := m.person } else m) : FileMeta).hash = m.hash := by
  by_cases h : m.id_item = some ""
  · rw [if_pos h]
  · rw [if_neg h]

theorem buildHashMapAux_norm : ∀ (l : List FileMeta) (i : Nat)
    (gs : List (String × List Nat)),
    buildHashMapAux (l.map (fun m => if m.id_item = some "" then
      { hash := m.hash, id_item := none, seconds := m.seconds, person := m.person }
      else m)) i gs = buildHashMapAux l i gs := by
  intro l
  induction l with
  | nil => intro i gs; rfl
  | cons m rest ih =>
    intro i gs
    rw [List.map_cons, buildHashMapAux, buildHashMapAux, normalizeEmptyIds_hash, ih]

theorem buildIdMapAux_norm : ∀ (l : List FileMeta) (i : Nat)
    (gs : List (String × List Nat)),
    buildIdMapAux (l.map (fun m => if m.id_item = some "" then
      { hash := m.hash, id_item := none, seconds := m.seconds, person := m.person }
      else m)) i gs = buildIdMapAux l i gs := by
  intro l
  induction l with
  | nil => intro i gs; rfl
  | cons m rest ih =>
    intro i gs
    rw [List.map_cons, buildIdMapAux, buildIdMapAux, ih]
    cases hid : m.id_item with
    | none =>
      rw [if_neg (by intro h; cases h)]
      rw [hid]
    | some s =>
      by_cases hs : s = ""
      · rw [if_pos (by rw [hs] : (some s : Option String) = some "")]
        dsimp only
        rw [if_pos hs]
      · rw [if_neg (by intro h; exact hs (Option.some.inj h))]
        rw [hid]

theorem eqvGen_iso (r : Nat → Nat → Prop) (i : Nat)
    (hr : ∀ a b, r a b → (a = i ↔ b = i)) :
    ∀ a b, Relation.EqvGen r a b → (a = i ↔ b = i) := by
  intro a b h
  induction h with
  | rel x y hxy => exact hr x y hxy
  | refl x => exact Iff.rfl
  | symm x y _ ih => exact ih.symm
  | trans x y z _ _ ih1 ih2 => exact ih1.trans ih2

theorem filter_eq_singleton {P : Nat → Bool} {i : Nat} :
    ∀ {l : List Nat}, l.Nodup → i ∈ l → (∀ a ∈ l, (P a = true ↔ a = i)) →
    l.filter P = [i] := by
  intro l
  induction l with
  | nil => intro _ hil; cases hil
  | cons a rest ih =>
    intro hnd hil hP
    rcases List.nodup_cons.mp hnd with ⟨hni, hndr⟩
    by_cases hai : a = i
    · rw [List.filter_cons, if_pos ((hP a (List.mem_cons_self _ _)).mpr hai), hai]
      have hrest : rest.filter P = [] := by
        rw [List.filter_eq_nil_iff]
        intro b hb hPb
        have hbi : b = i := (hP b (List.mem_cons_of_mem _ hb)).mp hPb
        rw [hbi, ← hai] at hb
        exact hni hb
      rw [hrest]
    · have hirest : i ∈ rest := by
        rcases List.mem_cons.mp hil with h | h
        · exact absurd h.symm hai
        · exact h
      rw [List.filter_cons, if_neg ?_]
      · exact ih hndr hirest (fun b hb => hP b (List.mem_cons_of_mem _ hb))
      · intro hPa
        exact hai ((hP a (List.mem_cons_self _ _)).mp hPa)

/-- Claim C10: an empty-string logical item id behaves exactly like an
absent one (make_components is unchanged by rewriting some "" to none),
and an artifact with an empty-string id and a digest shared by no other
artifact forms the singleton cluster [i]. -/
theorem claim_C10 (fm : List FileMeta) (i : Nat) (hi : i < fm.length)
    (hid : (fm.getD i default).id_item = some "")
    (huniq : ∀ j, j < fm.length → j ≠ i →
      (fm.getD j default).hash ≠ (fm.getD i default).hash) :
    make_components (normalizeEmptyIds fm) = make_components fm ∧
    [i] ∈ make_components fm := by
  constructor
  · have hlen : (normalizeEmptyIds fm).length = fm.length := List.length_map _ _
    have hhm : buildHashMap (normalizeEmptyIds fm) = buildHashMap fm := by
      rw [buildHashMap, buildHashMap, normalizeEmptyIds]
      exact buildHashMapAux_norm fm 0 []
    have him : buildIdMap (normalizeEmptyIds fm) = buildIdMap fm := by
      rw [buildIdMap, buildIdMap, normalizeEmptyIds]
      exact buildIdMapAux_norm fm 0 []
    rw [make_components, make_components, hlen, hhm, him]
  · -- i is isolated in the edge graph, so it is its own root and forms
    -- the singleton group [i]
    have hedge : ∀ a b, edge fm a b → (a = i ↔ b = i) := by
      rintro a b ⟨ha, hb, hd | hs⟩
      · constructor
        · rintro rfl
          by_contra hbi
          exact huniq b hb hbi (by rw [shareDigest] at hd; rw [hd])
        · rintro rfl
          by_contra hai
          exact huniq a ha hai (by rw [shareDigest] at hd; rw [hd])
      · constructor
        · rintro rfl
          rcases hs with ⟨s, hs1, -⟩
          rw [hid] at hs1
          rw [idKey, if_pos rfl] at hs1
          cases hs1
        · rintro rfl
          rcases hs with ⟨s, -, hs2⟩
          rw [hid] at hs2
          rw [idKey, if_pos rfl] at hs2
          cases hs2
    have hiso : ∀ a b, connected fm a b → (a = i ↔ b = i) :=
      eqvGen_iso (edge fm) i hedge
    have hrootI : rootU fm i = i :=
      (hiso i (rootU fm i) (rootU_conn fm hi)).mp rfl
    have hrootNe : ∀ j, j < fm.length → j ≠ i → rootU fm j ≠ i := by
      intro j hj hji hrj
      exact hji ((hiso j (rootU fm j) (rootU_conn fm hj)).mpr (by rw [hrj]))
    obtain ⟨hnd, hfil, htot⟩ := buildGroupsPure_inv fm
    have hroot := htot i (List.mem_range.mpr hi)
    rcases List.mem_map.mp hroot with ⟨e, he, hfst⟩
    have hsing : e.2 = [i] := by
      rw [hfil e he]
      refine filter_eq_singleton (List.nodup_range _) (List.mem_range.mpr hi) ?_
      intro a ha
      rw [decide_eq_true_eq, hfst, hrootI]
      constructor
      · intro h
        by_contra hai
        exact hrootNe a (List.mem_range.mp ha) hai h
      · rintro rfl
        exact hrootI
    rw [make_components_pure]
    rw [← hsing]
    exact List.mem_map_of_mem Prod.snd he

/-- Two artifacts; the first has an empty-string id and a unique
digest. -/
def c10File : List FileMeta :=
  [⟨"u", some "", 1, none⟩, ⟨"v", some "x", 2, none⟩]

theorem claim_C10_witness :
    (c10File.getD 0 default).id_item = some "" ∧
    make_components (normalizeEmptyIds c10File) = make_components c10File ∧
    [0] ∈ make_components c10File :=
  ⟨by decide,
    (claim_C10 c10File 0 (by decide) (by decide) (by decide)).1,
    (claim_C10 c10File 0 (by decide) (by decide) (by decide)).2⟩
